import Mathlib

/-!
Verification development for the symmetric-functions repository
(src/cpp/lib.h): a memoized Murnaghan-Nakayama character-table
computation for symmetric groups.

Modelling conventions, fixed once for the whole file:
* C++ `size_t` values are natural numbers; every arithmetic operation on
  them is performed modulo 2^64 (`szW`), exactly as unsigned C++
  arithmetic wraps.  This matters: `get_border_strips` can wrap.
* C++ `int` values are modelled as unbounded integers (signed overflow is
  undefined behaviour and assumed absent), but the implementation-defined
  narrowing conversion `static_cast<int>(size_t)` is modelled exactly as
  the universal two's-complement truncation (`i32ofSz`).
* `std::vector` indexing is modelled with `List.getD _ 0` / `List.set`;
  an out-of-bounds read of `rho[0]` in `char_value` (genuine undefined
  behaviour reachable from well-formed partitions) is modelled by
  returning `none`.
* The while-loops of `get_border_strips` are modelled with explicit fuel.
  The fuel of the two inner loops is chosen so that they always exit by
  their C++ loop condition whenever the C++ loop terminates; the outer
  loop gets fuel `bsFuel`, large enough for every terminating run used in
  the theorems below (the C++ loop can genuinely run forever on wrapped
  inputs, where the model instead stops and keeps the results emitted so
  far).
* `std::map` is an association list; the maps are never iterated by the
  source, so only lookup/insert behaviour matters.  `operator[]` inserts
  an empty inner map on first access, which the model reproduces
  (`cacheTouch`).
-/

/-- Modulus of C++ `size_t` arithmetic (64-bit). -/
def szW : Nat := 2 ^ 64

/-- Value of an integer after conversion to `size_t` (wrap modulo 2^64). -/
def szI (z : Int) : Nat := (z % (szW : Int)).toNat

/-- C++ `size_t` addition. -/
def szAdd (a b : Nat) : Nat := (a + b) % szW

/-- C++ compound assignment `a += z` where `a : size_t` and `z : int`. -/
def szAddI (a : Nat) (z : Int) : Nat := szI ((a : Int) + z)

/-- C++ `size_t` subtraction (wraps below zero). -/
def szSub (a b : Nat) : Nat := szI ((a : Int) - (b : Int))

/-- C++ `static_cast<int>` applied to a `size_t` value: two's-complement
truncation to 32 bits. -/
def i32ofSz (x : Nat) : Int :=
  if x % 2 ^ 32 < 2 ^ 31 then ((x % 2 ^ 32 : Nat) : Int)
  else ((x % 2 ^ 32 : Nat) : Int) - 2 ^ 32

/-- Read of `v[i]` for a modelled `std::vector<size_t>`. -/
def wget (l : List Nat) (i : Nat) : Nat := l.getD i 0

/-- Write of `v[i] = x` for a modelled `std::vector<size_t>`. -/
def wset (l : List Nat) (i : Nat) (v : Nat) : List Nat := l.set i v

/-- The struct `PartitionWithoutBorderStrip` of lib.h. -/
structure PartitionWithoutBorderStrip where
  partition : List Nat
  border_strip : List Nat
deriving DecidableEq

/-- `CharTable::correct_partition`: keep only the positive items. -/
def correct_partition (lambda : List Nat) : List Nat :=
  lambda.filter (fun item => 0 < item)

/-- `MinusOnePow`, instantiated at the `size_t` argument the source uses. -/
def MinusOnePow (power : Nat) : Int := if power % 2 = 0 then 1 else -1

/-- `Sum` of lib.h at `Value = size_t`: left fold with wrapping addition. -/
def SumSz (l : List Nat) : Nat := l.foldl (fun a x => (a + x) % szW) 0

/-- The mutable local state of `CharTable::get_border_strips`:
accumulated `result`, cursor `row`, working copies of `lambda` and `xi`,
remaining budget `bs` (`bs_length`, an `int`) and `first_non_zero_row`
(`fnz`). -/
structure BSState where
  result : List PartitionWithoutBorderStrip
  row : Nat
  lam : List Nat
  xi : List Nat
  bs : Int
  fnz : Nat

/-- Inner while-loop of the down step: while the cursor is in range and
`lambda[row]` still equals the run value `v`, spend one unit of budget,
record one removed cell in `xi[row]`, and move down. -/
def runWhile (v : Nat) : Nat → BSState → BSState
  | 0, s => s
  | fuel + 1, s =>
    if s.row < s.lam.length ∧ wget s.lam s.row = v then
      runWhile v fuel { s with bs := s.bs - 1, xi := wset s.xi s.row (szAdd (wget s.xi s.row) 1),
                               row := s.row + 1 }
    else s

/-- The for-loop after the run: decrement `lambda[a], ..., lambda[a+count-1]`. -/
def decRange (l : List Nat) (a : Nat) : Nat → List Nat
  | 0 => l
  | count + 1 => decRange (wset l a (szSub (wget l a) 1)) (a + 1) count

/-- The refund while-loop: while the budget is negative, give the strip
cells recorded at `first_non_zero_row` back to `lambda` and advance. -/
def refundWhile : Nat → BSState → BSState
  | 0, s => s
  | fuel + 1, s =>
    if s.bs < 0 then
      refundWhile fuel { s with lam := wset s.lam s.fnz (szAdd (wget s.lam s.fnz) (wget s.xi s.fnz)),
                                bs := s.bs + i32ofSz (wget s.xi s.fnz),
                                xi := wset s.xi s.fnz 0,
                                fnz := s.fnz + 1 }
    else s

/-- One execution of the three-way branch in the loop body of
`get_border_strips`; `.inr` is the early `return result` of the
last-row case. -/
def bsBranch (s : BSState) : BSState ⊕ List PartitionWithoutBorderStrip :=
  if s.row + 1 = s.lam.length then
    let step := min s.bs (i32ofSz (wget s.lam s.row))
    let s' : BSState := { s with bs := s.bs - step,
                                 lam := wset s.lam s.row (szSub (wget s.lam s.row) (szI step)),
                                 xi := wset s.xi s.row (szAddI (wget s.xi s.row) step) }
    if 0 < s'.bs then .inr s'.result else .inl s'
  else if wget s.lam (s.row + 1) < wget s.lam s.row then
    let step := min s.bs (i32ofSz (szSub (wget s.lam s.row) (wget s.lam (s.row + 1))))
    .inl { s with bs := s.bs - step,
                  lam := wset s.lam s.row (szSub (wget s.lam s.row) (szI step)),
                  xi := wset s.xi s.row (szAddI (wget s.xi s.row) step) }
  else
    let v := wget s.lam s.row
    let prev := s.row
    let s1 := runWhile v (s.lam.length + 1 - s.row) s
    let s2 := { s1 with lam := decRange s1.lam prev (s1.row - prev), row := s1.row - 1 }
    .inl (refundWhile (s2.xi.length + 1) s2)

/-- The `if (bs_length == 0)` block: emit the current pair, restart the
sweep by refunding the earliest recorded row, and advance the cursor when
it coincides with that row. -/
def emitCheck (s : BSState) : BSState :=
  if s.bs = 0 then
    let s1 : BSState := { s with result := s.result ++ [⟨s.lam, s.xi⟩],
                                 lam := wset s.lam s.fnz (szAdd (wget s.lam s.fnz) (wget s.xi s.fnz)),
                                 bs := s.bs + i32ofSz (wget s.xi s.fnz),
                                 xi := wset s.xi s.fnz 0 }
    if s1.row = s1.fnz then { s1 with row := s1.row + 1, fnz := s1.fnz + 1 } else s1
  else s

/-- The outer while-loop of `get_border_strips`. -/
def bsLoop (fuel : Nat) (s : BSState) : List PartitionWithoutBorderStrip :=
  if 0 < s.bs ∧ s.row < s.lam.length then
    match fuel with
    | 0 => s.result
    | f + 1 =>
      match bsBranch s with
      | .inr res => res
      | .inl s' => bsLoop f (emitCheck s')
  else s.result

/-- Fuel given to the outer loop of `get_border_strips`. -/
def bsFuel (lambda : List Nat) (m : Int) : Nat := lambda.sum + lambda.length + m.toNat + 2

/-- `CharTable::get_border_strips`. -/
def get_border_strips (lambda : List Nat) (bs_length : Int) : List PartitionWithoutBorderStrip :=
  bsLoop (bsFuel lambda bs_length)
    { result := [], row := 0, lam := lambda, xi := List.replicate lambda.length 0,
      bs := bs_length, fnz := 0 }

/-- Inner map of the memoization cache: `std::map<Partition, int>`. -/
abbrev InnerCache := List (List Nat × Int)

/-- Outer map: `std::map<Partition, std::map<Partition, int>>`. -/
abbrev Cache := List (List Nat × InnerCache)

/-- Lookup in an inner map (`.find`). -/
def innerFind (m : InnerCache) (k : List Nat) : Option Int :=
  match m.find? (fun e => e.1 = k) with
  | none => none
  | some e => some e.2

/-- Assignment `m[k] = v` on an inner map. -/
def innerInsert (m : InnerCache) (k : List Nat) (v : Int) : InnerCache :=
  if m.any (fun e => e.1 = k) then m.map (fun e => if e.1 = k then (k, v) else e)
  else m ++ [(k, v)]

/-- Whether the outer map already has key `l`. -/
def cacheHasOuter (c : Cache) (l : List Nat) : Bool := c.any (fun e => e.1 = l)

/-- Effect of `character_values[lambda]` on the outer map: default-insert
an empty inner map when the key is absent. -/
def cacheTouch (c : Cache) (l : List Nat) : Cache :=
  if cacheHasOuter c l then c else c ++ [(l, [])]

/-- The inner map currently associated with outer key `l` (empty when
absent). -/
def cacheInner (c : Cache) (l : List Nat) : InnerCache :=
  match c.find? (fun e => e.1 = l) with
  | none => []
  | some e => e.2

/-- `character_values[l].find(r)` after the touch has happened. -/
def cacheFind (c : Cache) (l r : List Nat) : Option Int := innerFind (cacheInner c l) r

/-- `character_values[l][r] = v`. -/
def cacheStore (c : Cache) (l r : List Nat) (v : Int) : Cache :=
  (cacheTouch c l).map (fun e => if e.1 = l then (e.1, innerInsert e.2 r v) else e)

/-- The accumulation loop of `char_value` over the returned border strips;
`f` is the recursive call at the tail of `rho`.  `none` propagates an
out-of-bounds failure from a nested call. -/
def charFoldF (f : List Nat → Cache → Option (Int × Cache)) :
    List PartitionWithoutBorderStrip → Int → Cache → Option (Int × Cache)
  | [], acc, c => some (acc, c)
  | p :: rest, acc, c =>
    match f (correct_partition p.partition) c with
    | none => none
    | some (v, cc) =>
      charFoldF f rest (acc + MinusOnePow (szSub (correct_partition p.border_strip).length 1) * v) cc

/-- `CharTable::char_value`, with fuel bounding the recursion depth.  The
depth of the C++ recursion is the length of (the normalization of) `rho`,
so fuel `rho.length + 1` (as used by `char_value` below) never runs out;
`none` means the C++ code read `rho[0]` of an empty vector. -/
def char_valueAux : Nat → List Nat → List Nat → Cache → Option (Int × Cache)
  | 0, _, _, _ => none
  | fuel + 1, lambda, rho, c =>
    let l := correct_partition lambda
    let r := correct_partition rho
    if SumSz l < 2 then some (1, c)
    else
      let c1 := cacheTouch c l
      match cacheFind c1 l r with
      | some v => some (v, c1)
      | none =>
        match r with
        | [] => none
        | r0 :: rtl =>
          let strips := get_border_strips l (i32ofSz r0)
          match charFoldF (fun part cc => char_valueAux fuel part rtl cc) strips 0 c1 with
          | none => none
          | some (res, c2) => some (res, cacheStore c2 l r res)

/-- `CharTable::char_value` on a given cache. -/
def char_value (lambda rho : List Nat) (c : Cache) : Option (Int × Cache) :=
  char_valueAux (rho.length + 1) lambda rho c

/-- Insertion into a descending list; `sortDesc` below produces exactly the
non-increasing arrangement that `std::sort(rbegin, rend)` produces. -/
def insertDesc (x : Nat) : List Nat → List Nat
  | [] => [x]
  | y :: ys => if y < x then x :: y :: ys else y :: insertDesc x ys

/-- Sorting into non-increasing order. -/
def sortDesc (l : List Nat) : List Nat := l.foldr insertDesc []

/-- Helper of `uniqueAdj`: drop elements equal to the previous kept one. -/
def uniqueAdjRest (prev : List Nat) : List (List Nat) → List (List Nat)
  | [] => []
  | y :: ys => if y = prev then uniqueAdjRest prev ys else y :: uniqueAdjRest y ys

/-- `std::unique` + `erase`: remove consecutive duplicates only. -/
def uniqueAdj : List (List Nat) → List (List Nat)
  | [] => []
  | x :: xs => x :: uniqueAdjRest x xs

/-- Body of the outer for-loop of `calculate_partitions`: all candidates
for `num` built from the table so far, with `std::unique` applied. -/
def buildNum (parts : List (List (List Nat))) (num : Nat) : List (List Nat) :=
  uniqueAdj ((List.range num).flatMap (fun index =>
    (parts.getD index []).map (fun p => sortDesc (p ++ [num - index]))))

/-- The extension loop of `calculate_partitions` (fuel `n + 1` suffices:
each pass appends one entry). -/
def extendAux (n : Nat) : Nat → List (List (List Nat)) → List (List (List Nat))
  | 0, ps => ps
  | fuel + 1, ps => if ps.length < n + 1 then extendAux n fuel (ps ++ [buildNum ps ps.length]) else ps

/-- The mutable members of a `CharTable` object. -/
structure CTState where
  character_values : Cache
  partitions : List (List (List Nat))
deriving DecidableEq

/-- A freshly constructed `CharTable`: empty cache, partition table
initialized with partitions of 0 and of 1. -/
def initState : CTState := { character_values := [], partitions := [[[]], [[1]]] }

/-- `CharTable::calculate_partitions`: extend the table up to `n` and
return its row `n` together with the updated state. -/
def calculate_partitions (n : Nat) (σ : CTState) : List (List Nat) × CTState :=
  let ps := extendAux n (n + 1) σ.partitions
  (ps.getD n [], { σ with partitions := ps })

/-- Inner for-loop of `character_table`: one row of the table. -/
def rowFold (lambda : List Nat) : List (List Nat) → Cache → Option (List Int × Cache)
  | [], c => some ([], c)
  | rho :: rest, c =>
    match char_value lambda rho c with
    | none => none
    | some (v, c') =>
      match rowFold lambda rest c' with
      | none => none
      | some (vs, c'') => some (v :: vs, c'')

/-- Outer for-loop of `character_table`. -/
def tableFold : List (List Nat) → List (List Nat) → Cache → Option (List (List Int) × Cache)
  | [], _, c => some ([], c)
  | lambda :: rest, cols, c =>
    match rowFold lambda cols c with
    | none => none
    | some (vs, c') =>
      match tableFold rest cols c' with
      | none => none
      | some (t, c'') => some (vs :: t, c'')

/-- `CharTable::character_table`. -/
def character_table (n : Nat) (σ : CTState) : Option (List (List Int) × CTState) :=
  let pσ := calculate_partitions n σ
  match tableFold pσ.1 pσ.1 pσ.2.character_values with
  | none => none
  | some (t, c') => some (t, { pσ.2 with character_values := c' })

/-- Partitions with only positive parts. -/
def PosParts (p : List Nat) : Prop := ∀ x ∈ p, 0 < x

/-- Index-wise non-increasing (with reads beyond the end giving 0). -/
def NonIncW (l : List Nat) : Prop := ∀ i, wget l (i + 1) ≤ wget l i

/-- Sign of a permutation whose cycle type is `rho`: the product of
`(-1) ^ (rho_i - 1)` over the parts. -/
def signProd (rho : List Nat) : Int := (rho.map (fun r => (-1 : Int) ^ (r - 1))).prod

/-- Specification of a correctly emitted pair of `get_border_strips` on
input shape `lam0` and strip length `m`: the pair decomposes `lam0`
row-wise, the strip has exactly `m` cells, and the remaining shape is
again non-increasing. -/
structure StripOK (lam0 : List Nat) (m : Int) (p : PartitionWithoutBorderStrip) : Prop where
  hlenL : p.partition.length = lam0.length
  hlenX : p.border_strip.length = lam0.length
  hadd : ∀ i, wget p.partition i + wget p.border_strip i = wget lam0 i
  hsum : (p.border_strip.sum : Int) = m
  hmono : NonIncW p.partition

/-- Preconditions on the input of `get_border_strips` under which the
machine arithmetic never wraps: a non-increasing, positive shape whose
size fits a 32-bit int, and a strip length in `[1, 2^31)`. -/
structure GoodIn (lam0 : List Nat) (m : Int) : Prop where
  hmono : NonIncW lam0
  hpos : ∀ i, i < lam0.length → 1 ≤ wget lam0 i
  hsum : lam0.sum < 2 ^ 31
  hm1 : 1 ≤ m
  hm2 : m < 2 ^ 31

/-- Loop invariant of the sweep of `get_border_strips`, relative to the
original shape `lam0` and requested strip length `m`. -/
structure BSInv (lam0 : List Nat) (m : Int) (s : BSState) : Prop where
  hlenL : s.lam.length = lam0.length
  hlenX : s.xi.length = lam0.length
  hadd : ∀ i, wget s.lam i + wget s.xi i = wget lam0 i
  hbs : s.bs + (s.xi.sum : Int) = m
  hmono : NonIncW s.lam
  hfnz : ∀ i, i < s.fnz → wget s.xi i = 0
  hxiHigh : ∀ i, s.row < i → wget s.xi i = 0
  hlamHigh : ∀ i, s.row < i → wget s.lam i = wget lam0 i
  hfr : s.fnz ≤ s.row
  hxm : (wget s.xi s.row : Int) ≤ m
  hres : ∀ p ∈ s.result, StripOK lam0 m p

/-- Every `(lambda, rho) -> value` association present in `c` is still
present in `c'`. -/
def CachePreserve (c c' : Cache) : Prop :=
  ∀ l r v, cacheFind c l r = some v → cacheFind c' l r = some v

/-- Every outer key and every inner key of the memoization cache has only
positive parts. -/
def CacheWF (c : Cache) : Prop :=
  ∀ e ∈ c, PosParts e.1 ∧ ∀ e2 ∈ e.2, PosParts e2.1

/-- Every partition in every entry of the partitions table has only
positive parts. -/
def PartsWF (ps : List (List (List Nat))) : Prop := ∀ row ∈ ps, ∀ p ∈ row, PosParts p

/-- Combined invariant for a `CharTable` object's state. -/
def StateWF (σ : CTState) : Prop := CacheWF σ.character_values ∧ PartsWF σ.partitions

/-- Caches in which every inner map is still empty (only touched by
`operator[]`, never written). -/
def InnerEmptyAll (c : Cache) : Prop := ∀ e ∈ c, e.2 = ([] : InnerCache)

/-! ### Machine-arithmetic lemmas: when nothing wraps, the `size_t`
operations agree with ordinary arithmetic. -/

lemma szW_pos : 0 < szW := by norm_num [szW]

lemma szI_eq_toNat {z : Int} (h0 : 0 ≤ z) (h1 : z < (szW : Int)) : szI z = z.toNat := by
  unfold szI
  rw [Int.emod_eq_of_lt h0 h1]

lemma szI_coe {n : Nat} (h : n < szW) : szI (n : Int) = n := by
  rw [szI_eq_toNat (by positivity) (by exact_mod_cast h)]
  exact Int.toNat_natCast n

lemma szAdd_eq {a b : Nat} (h : a + b < szW) : szAdd a b = a + b := Nat.mod_eq_of_lt h

lemma szSub_eq {a b : Nat} (hb : b ≤ a) (ha : a < szW) : szSub a b = a - b := by
  unfold szSub
  rw [szI_eq_toNat (by omega) (by omega)]
  omega

lemma szAddI_eq {a : Nat} {z : Int} (h0 : 0 ≤ (a : Int) + z) (h1 : (a : Int) + z < (szW : Int)) :
    ((szAddI a z : Nat) : Int) = (a : Int) + z := by
  unfold szAddI
  rw [szI_eq_toNat h0 h1]
  exact Int.toNat_of_nonneg h0

lemma szSubI_eq {a : Nat} {z : Int} (h0 : 0 ≤ z) (h1 : z ≤ (a : Int)) (ha : a < szW) :
    szSub a (szI z) = a - z.toNat := by
  have hz : szI z = z.toNat := szI_eq_toNat h0 (by omega)
  rw [hz]
  exact szSub_eq (by omega) ha

lemma i32ofSz_eq {x : Nat} (h : x < 2 ^ 31) : i32ofSz x = (x : Int) := by
  unfold i32ofSz
  have hx : x % 2 ^ 32 = x := Nat.mod_eq_of_lt (by omega)
  rw [hx]
  simp only [if_pos h]

/-! ### Indexing lemmas for the modelled vectors -/

lemma wget_nil (i : Nat) : wget [] i = 0 := List.getD_nil

lemma wget_cons_zero {a : Nat} {t : List Nat} : wget (a :: t) 0 = a := List.getD_cons_zero

lemma wget_cons_succ {a : Nat} {t : List Nat} {i : Nat} : wget (a :: t) (i + 1) = wget t i :=
  List.getD_cons_succ

lemma wget_eq_getElem {l : List Nat} {i : Nat} (h : i < l.length) : wget l i = l[i] := by
  unfold wget
  rw [List.getD_eq_getElem?_getD, List.getElem?_eq_getElem h]
  rfl

lemma wget_of_le {l : List Nat} {i : Nat} (h : l.length ≤ i) : wget l i = 0 :=
  List.getD_eq_default l 0 h

lemma length_wset (l : List Nat) (i v : Nat) : (wset l i v).length = l.length :=
  List.length_set l i v

lemma wget_wset_self {l : List Nat} {i : Nat} (v : Nat) (h : i < l.length) :
    wget (wset l i v) i = v := by
  unfold wget wset
  rw [List.getD_eq_getElem?_getD, List.getElem?_set_self h]
  rfl

lemma wget_wset_ne {l : List Nat} {i j : Nat} (v : Nat) (h : i ≠ j) :
    wget (wset l i v) j = wget l j := by
  unfold wget wset
  rw [List.getD_eq_getElem?_getD, List.getElem?_set_ne h, ← List.getD_eq_getElem?_getD]

lemma wget_wset {l : List Nat} {i j : Nat} (v : Nat) :
    wget (wset l i v) j = if i = j ∧ i < l.length then v else wget l j := by
  by_cases hij : i = j
  · subst hij
    by_cases hi : i < l.length
    · rw [wget_wset_self v hi]
      simp [hi]
    · have : wset l i v = l := by
        unfold wset
        exact List.set_eq_of_length_le (by omega)
      rw [this]
      simp [hi]
  · rw [wget_wset_ne v hij]
    simp [hij]

lemma wget_replicate_zero (n i : Nat) : wget (List.replicate n 0) i = 0 := by
  unfold wget
  rcases lt_or_ge i n with h | h
  · rw [List.getD_eq_getElem?_getD, List.getElem?_eq_getElem (by simpa using h)]
    simp
  · exact List.getD_eq_default _ _ (by simpa using h)

/-! ### Sums through `wget` -/

lemma sum_eq_wget_range : ∀ l : List Nat, l.sum = ∑ i ∈ Finset.range l.length, wget l i := by
  intro l
  induction l with
  | nil => simp
  | cons a t ih =>
    rw [List.sum_cons, List.length_cons, Finset.sum_range_succ']
    simp only [wget_cons_succ, wget_cons_zero]
    rw [← ih]
    omega

lemma wget_le_sum (l : List Nat) (i : Nat) : wget l i ≤ l.sum := by
  rcases lt_or_ge i l.length with h | h
  · rw [sum_eq_wget_range l]
    exact Finset.single_le_sum (f := fun j => wget l j) (fun _ _ => Nat.zero_le _)
      (Finset.mem_range.mpr h)
  · rw [wget_of_le h]
    exact Nat.zero_le _

lemma sum_add_of_pointwise {l1 l2 l3 : List Nat} (h1 : l1.length = l3.length)
    (h2 : l2.length = l3.length) (h : ∀ i, wget l1 i + wget l2 i = wget l3 i) :
    l1.sum + l2.sum = l3.sum := by
  rw [sum_eq_wget_range l1, sum_eq_wget_range l2, sum_eq_wget_range l3, h1, h2,
    ← Finset.sum_add_distrib]
  exact Finset.sum_congr rfl (fun i _ => h i)

lemma SumSz_aux : ∀ (l : List Nat) (a : Nat),
    List.foldl (fun a x => (a + x) % szW) (a % szW) l = (a + l.sum) % szW := by
  intro l
  induction l with
  | nil => simp
  | cons x t ih =>
    intro a
    rw [List.foldl_cons, Nat.mod_add_mod, ih (a + x), List.sum_cons]
    ring_nf

lemma SumSz_eq (l : List Nat) : SumSz l = l.sum % szW := by
  have h := SumSz_aux l 0
  rw [Nat.zero_mod] at h
  simpa [SumSz] using h

lemma SumSz_of_lt {l : List Nat} (h : l.sum < szW) : SumSz l = l.sum := by
  rw [SumSz_eq]
  exact Nat.mod_eq_of_lt h

/-! ### Non-increasing lists and `correct_partition` -/

lemma nonIncW_add {l : List Nat} (h : NonIncW l) : ∀ d i, wget l (i + d) ≤ wget l i := by
  intro d
  induction d with
  | zero => intro i; exact le_refl _
  | succ d ih =>
    intro i
    have h1 := h (i + d)
    have h2 := ih i
    have h3 : i + (d + 1) = i + d + 1 := by omega
    rw [h3]
    omega

lemma nonIncW_mono {l : List Nat} (h : NonIncW l) {i j : Nat} (hij : i ≤ j) :
    wget l j ≤ wget l i := by
  have := nonIncW_add h (j - i) i
  have hji : i + (j - i) = j := by omega
  rwa [hji] at this

lemma nonIncW_tail {a : Nat} {t : List Nat} (h : NonIncW (a :: t)) : NonIncW t := by
  intro i
  have := h (i + 1)
  simpa [wget_cons_succ] using this

lemma sorted_of_nonIncW : ∀ {l : List Nat}, NonIncW l → l.Sorted (fun a b => b ≤ a) := by
  intro l
  induction l with
  | nil => intro _; exact List.sorted_nil
  | cons a t ih =>
    intro h
    rw [List.sorted_cons]
    refine ⟨?_, ih (nonIncW_tail h)⟩
    intro b hb
    obtain ⟨k, hk, hbk⟩ := List.mem_iff_getElem.mp hb
    have hwk : wget t k = b := by rw [wget_eq_getElem hk, hbk]
    have h1 : wget (a :: t) (k + 1) ≤ wget (a :: t) 0 := nonIncW_mono h (by omega)
    rwa [wget_cons_succ, wget_cons_zero, hwk] at h1

lemma nonIncW_of_sorted {l : List Nat} (h : l.Sorted (fun a b => b ≤ a)) : NonIncW l := by
  intro i
  rcases lt_or_ge (i + 1) l.length with h1 | h1
  · rw [wget_eq_getElem h1, wget_eq_getElem (by omega)]
    have := List.pairwise_iff_getElem.mp h i (i + 1) (by omega) h1 (by omega)
    exact this
  · rw [wget_of_le h1]
    exact Nat.zero_le _

lemma posParts_correct (l : List Nat) : PosParts (correct_partition l) := by
  intro x hx
  have := List.of_mem_filter hx
  simpa using this

lemma correct_of_posParts {l : List Nat} (h : PosParts l) : correct_partition l = l := by
  unfold correct_partition
  rw [List.filter_eq_self]
  intro a ha
  simpa using h a ha

lemma correct_idem (l : List Nat) :
    correct_partition (correct_partition l) = correct_partition l :=
  correct_of_posParts (posParts_correct l)

lemma sum_correct : ∀ l : List Nat, (correct_partition l).sum = l.sum := by
  intro l
  induction l with
  | nil => rfl
  | cons a t ih =>
    unfold correct_partition at *
    by_cases ha : 0 < a
    · rw [List.filter_cons_of_pos (by simpa using ha), List.sum_cons, List.sum_cons, ih]
    · rw [List.filter_cons_of_neg (by simpa using ha), List.sum_cons, ih]
      omega

lemma length_correct_le (l : List Nat) : (correct_partition l).length ≤ l.length :=
  List.length_filter_le _ l

lemma correct_ne_nil_of_sum_pos {l : List Nat} (h : 0 < l.sum) : correct_partition l ≠ [] := by
  intro hnil
  have := sum_correct l
  rw [hnil] at this
  simp at this
  omega

lemma sorted_correct {l : List Nat} (h : l.Sorted (fun a b => b ≤ a)) :
    (correct_partition l).Sorted (fun a b => b ≤ a) :=
  List.Pairwise.filter _ h

lemma nonIncW_correct {l : List Nat} (h : NonIncW l) : NonIncW (correct_partition l) :=
  nonIncW_of_sorted (sorted_correct (sorted_of_nonIncW h))

lemma posParts_head {r0 : Nat} {rtl l : List Nat} (h : correct_partition l = r0 :: rtl) :
    1 ≤ r0 := by
  have : r0 ∈ correct_partition l := by rw [h]; exact List.mem_cons_self _ _
  exact posParts_correct l r0 this

lemma head_le_sum {r0 : Nat} {rtl l : List Nat} (h : correct_partition l = r0 :: rtl) :
    r0 + rtl.sum = l.sum := by
  have := sum_correct l
  rw [h, List.sum_cons] at this
  omega

/-! ### Cache lemmas: lookup/insert behaviour of the modelled maps -/

lemma innerFind_cons (e : List Nat × Int) (t : InnerCache) (k : List Nat) :
    innerFind (e :: t) k = if e.1 = k then some e.2 else innerFind t k := by
  unfold innerFind
  rw [List.find?_cons]
  by_cases he : e.1 = k
  · simp [he]
  · simp [he]

lemma innerFind_map_ne : ∀ (t : InnerCache) {k k' : List Nat} (v : Int), k' ≠ k →
    innerFind (t.map (fun e => if e.1 = k then (k, v) else e)) k' = innerFind t k' := by
  intro t
  induction t with
  | nil => intro k k' v _; rfl
  | cons e s ih =>
    intro k k' v h
    rw [List.map_cons, innerFind_cons]
    by_cases he : e.1 = k
    · rw [if_pos he]
      have h1 : ¬ ((k, v).1 = k') := fun hh => h hh.symm
      rw [if_neg h1, ih v h, innerFind_cons, if_neg (by rw [he]; exact fun hh => h hh.symm)]
    · rw [if_neg he, ih v h, innerFind_cons]

lemma innerFind_map_self : ∀ (t : InnerCache) {k : List Nat} (v : Int),
    t.any (fun e => e.1 = k) = true →
    innerFind (t.map (fun e => if e.1 = k then (k, v) else e)) k = some v := by
  intro t
  induction t with
  | nil => intro k v h; simp at h
  | cons e s ih =>
    intro k v h
    rw [List.map_cons]
    by_cases he : e.1 = k
    · rw [if_pos he, innerFind_cons]
      simp
    · rw [if_neg he, innerFind_cons, if_neg he]
      have hs : s.any (fun e => e.1 = k) = true := by
        simp only [List.any_cons] at h
        rcases Bool.or_eq_true_iff.mp h with h1 | h1
        · exact absurd (by simpa using h1) he
        · exact h1
      exact ih v hs

lemma innerFind_of_not_any {t : InnerCache} {k : List Nat}
    (h : t.any (fun e => e.1 = k) = false) : innerFind t k = none := by
  unfold innerFind
  have : t.find? (fun e => e.1 = k) = none := by
    rw [List.find?_eq_none]
    intro x hx
    intro hcon
    have : t.any (fun e => e.1 = k) = true := List.any_eq_true.mpr ⟨x, hx, hcon⟩
    rw [h] at this
    exact Bool.false_ne_true this
  rw [this]

lemma innerFind_append_single (t : InnerCache) (k k' : List Nat) (v : Int)
    (h : t.any (fun e => e.1 = k) = false) :
    innerFind (t ++ [(k, v)]) k' = if k = k' then some v else innerFind t k' := by
  induction t with
  | nil =>
    rw [List.nil_append, innerFind_cons]
  | cons e s ih =>
    simp only [List.any_cons, Bool.or_eq_false_iff, decide_eq_false_iff_not] at h
    rw [List.cons_append, innerFind_cons, innerFind_cons, ih h.2]
    split_ifs with h1 h2
    · exact absurd (h1.trans h2.symm) h.1
    · rfl
    · rfl
    · rfl

lemma innerFind_insert (m : InnerCache) (k k' : List Nat) (v : Int) :
    innerFind (innerInsert m k v) k' = if k' = k then some v else innerFind m k' := by
  unfold innerInsert
  by_cases hany : m.any (fun e => e.1 = k) = true
  · rw [if_pos hany]
    by_cases h : k' = k
    · subst h
      rw [if_pos rfl, innerFind_map_self m v hany]
    · rw [if_neg h, innerFind_map_ne m v h]
  · rw [if_neg hany]
    rw [innerFind_append_single m k k' v (Bool.eq_false_iff.mpr hany)]
    by_cases h : k' = k
    · subst h
      simp
    · rw [if_neg (fun hh => h hh.symm), if_neg h]

lemma cacheInner_cons (e : List Nat × InnerCache) (t : Cache) (l : List Nat) :
    cacheInner (e :: t) l = if e.1 = l then e.2 else cacheInner t l := by
  unfold cacheInner
  rw [List.find?_cons]
  by_cases he : e.1 = l
  · simp [he]
  · simp [he]

lemma cacheInner_of_not_has {c : Cache} {l : List Nat}
    (h : cacheHasOuter c l = false) : cacheInner c l = [] := by
  unfold cacheInner
  have : c.find? (fun e => e.1 = l) = none := by
    rw [List.find?_eq_none]
    intro x hx hcon
    have : cacheHasOuter c l = true := List.any_eq_true.mpr ⟨x, hx, hcon⟩
    rw [h] at this
    exact Bool.false_ne_true this
  rw [this]

lemma cacheInner_append_single (c : Cache) (l l' : List Nat) (m : InnerCache) :
    cacheInner (c ++ [(l, m)]) l' =
      if cacheHasOuter c l' = true then cacheInner c l' else if l = l' then m else [] := by
  induction c with
  | nil =>
    rw [List.nil_append, cacheInner_cons]
    by_cases h : l = l'
    · simp [cacheHasOuter, h]
    · simp [cacheHasOuter, h, cacheInner]
  | cons e t ih =>
    rw [List.cons_append, cacheInner_cons, cacheInner_cons, ih]
    by_cases he : e.1 = l'
    · simp [cacheHasOuter, he]
    · simp only [cacheHasOuter, List.any_cons]
      rw [if_neg he, if_neg he]
      by_cases ht : cacheHasOuter t l' = true
      · simp [cacheHasOuter] at ht
        simp [ht, he]
      · simp [cacheHasOuter] at ht
        simp [ht, he]

lemma cacheInner_touch (c : Cache) (l l' : List Nat) :
    cacheInner (cacheTouch c l) l' = cacheInner c l' := by
  unfold cacheTouch
  by_cases h : cacheHasOuter c l = true
  · rw [if_pos h]
  · rw [if_neg h, cacheInner_append_single]
    by_cases h' : cacheHasOuter c l' = true
    · rw [if_pos h']
    · rw [if_neg h']
      by_cases hll : l = l'
      · subst hll
        rw [if_pos rfl, cacheInner_of_not_has (Bool.eq_false_iff.mpr h)]
      · rw [if_neg hll, cacheInner_of_not_has (Bool.eq_false_iff.mpr h')]

lemma cacheFind_touch (c : Cache) (l l' r : List Nat) :
    cacheFind (cacheTouch c l) l' r = cacheFind c l' r := by
  unfold cacheFind
  rw [cacheInner_touch]

lemma cacheHasOuter_touch (c : Cache) (l : List Nat) :
    cacheHasOuter (cacheTouch c l) l = true := by
  unfold cacheTouch
  by_cases h : cacheHasOuter c l = true
  · rw [if_pos h]
    exact h
  · rw [if_neg h]
    unfold cacheHasOuter
    rw [List.any_append]
    simp [cacheHasOuter]

lemma cacheTouch_of_has {c : Cache} {l : List Nat} (h : cacheHasOuter c l = true) :
    cacheTouch c l = c := by
  unfold cacheTouch
  rw [if_pos h]

lemma cacheInner_mapUpd_self : ∀ (c : Cache) (l : List Nat)
    (g : List Nat × InnerCache → InnerCache),
    cacheHasOuter c l = true →
    cacheInner (c.map (fun e => if e.1 = l then (e.1, g e) else e)) l = g (l, cacheInner c l) := by
  intro c
  induction c with
  | nil => intro l g h; simp [cacheHasOuter] at h
  | cons e t ih =>
    intro l g h
    rw [List.map_cons]
    by_cases he : e.1 = l
    · rw [if_pos he, cacheInner_cons, cacheInner_cons,
        if_pos (show (e.1, g e).1 = l from he), if_pos he]
      exact congrArg g (show e = (l, e.2) from by rw [← he])
    · rw [if_neg he, cacheInner_cons, cacheInner_cons, if_neg he, if_neg he]
      have ht : cacheHasOuter t l = true := by
        simp only [cacheHasOuter, List.any_cons] at h ⊢
        rcases Bool.or_eq_true_iff.mp h with h1 | h1
        · exact absurd (by simpa using h1) he
        · exact h1
      exact ih l g ht

lemma cacheInner_mapUpd_ne : ∀ (c : Cache) {l l' : List Nat}
    (g : List Nat × InnerCache → InnerCache), l' ≠ l →
    cacheInner (c.map (fun e => if e.1 = l then (e.1, g e) else e)) l' = cacheInner c l' := by
  intro c
  induction c with
  | nil => intro l l' g _; rfl
  | cons e t ih =>
    intro l l' g h
    rw [List.map_cons, cacheInner_cons, cacheInner_cons]
    by_cases he : e.1 = l
    · have hkey : (if e.1 = l then (e.1, g e) else e).1 = e.1 := by rw [if_pos he]
      have hne : ¬ (e.1 = l') := by
        rw [he]
        exact fun hh => h hh.symm
      rw [hkey, if_neg hne, if_neg hne, ih g h]
    · have hent : (if e.1 = l then (e.1, g e) else e) = e := if_neg he
      rw [hent, ih g h]

lemma cacheFind_store_self (c : Cache) (l r : List Nat) (v : Int) :
    cacheFind (cacheStore c l r v) l r = some v := by
  unfold cacheFind cacheStore
  rw [cacheInner_mapUpd_self _ _ _ (cacheHasOuter_touch c l), innerFind_insert]
  simp

lemma cacheFind_store_ne (c : Cache) (l r l' r' : List Nat) (v : Int)
    (h : ¬ (l' = l ∧ r' = r)) :
    cacheFind (cacheStore c l r v) l' r' = cacheFind c l' r' := by
  unfold cacheFind cacheStore
  by_cases hl : l' = l
  · subst hl
    rw [cacheInner_mapUpd_self _ _ _ (cacheHasOuter_touch c l'), innerFind_insert]
    have hr : r' ≠ r := fun hh => h ⟨rfl, hh⟩
    rw [if_neg hr, ← cacheInner_touch c l' l']
  · rw [cacheInner_mapUpd_ne _ _ hl, cacheInner_touch]

lemma cachePreserve_refl (c : Cache) : CachePreserve c c := fun _ _ _ h => h

lemma cachePreserve_trans {c1 c2 c3 : Cache} (h1 : CachePreserve c1 c2)
    (h2 : CachePreserve c2 c3) : CachePreserve c1 c3 :=
  fun l r v h => h2 l r v (h1 l r v h)

lemma cachePreserve_touch (c : Cache) (l : List Nat) : CachePreserve c (cacheTouch c l) := by
  intro l' r' v h
  rw [cacheFind_touch]
  exact h

lemma cachePreserve_store {c : Cache} {l r : List Nat} (v : Int)
    (h : cacheFind c l r = none) : CachePreserve c (cacheStore c l r v) := by
  intro l' r' w hw
  by_cases he : l' = l ∧ r' = r
  · rw [he.1, he.2] at hw
    rw [h] at hw
    exact absurd hw (by simp)
  · rw [cacheFind_store_ne c l r l' r' v he]
    exact hw

/-! ### Unfolding lemma for one step of `char_value` -/

lemma char_valueAux_succ (fuel : Nat) (lambda rho : List Nat) (c : Cache) :
    char_valueAux (fuel + 1) lambda rho c =
      (if SumSz (correct_partition lambda) < 2 then some (1, c)
       else
        match cacheFind (cacheTouch c (correct_partition lambda)) (correct_partition lambda)
            (correct_partition rho) with
        | some v => some (v, cacheTouch c (correct_partition lambda))
        | none =>
          match correct_partition rho with
          | [] => none
          | r0 :: rtl =>
            match charFoldF (fun part cc => char_valueAux fuel part rtl cc)
                (get_border_strips (correct_partition lambda) (i32ofSz r0)) 0
                (cacheTouch c (correct_partition lambda)) with
            | none => none
            | some (res, c2) =>
              some (res, cacheStore c2 (correct_partition lambda) (correct_partition rho) res)) := by
  rfl

/-- C1: for n = 3, `character_table` returns exactly the matrix claimed in
the spec, with rows and columns indexed by the generated partition order
[3], [2,1], [1,1,1]. -/
theorem c1_character_table_of_three :
    (calculate_partitions 3 initState).1 = [[3], [2, 1], [1, 1, 1]] ∧
    (character_table 3 initState).map Prod.fst =
      some [[1, 1, 1], [-1, 0, 2], [1, -1, 1]] :=
  ⟨by decide, by decide⟩

/-- C2 (refuted by the code): the partition generator deduplicates with
`std::unique` on an unsorted vector, so for n = 4 it returns 7 partitions
(with [3,1] and [2,1,1] twice) instead of the p(4) = 5 distinct ones; the
counts are still correct up to n = 3. -/
theorem c2_partition_table_bug_at_four :
    (calculate_partitions 4 initState).1 =
      [[4], [3, 1], [2, 2], [2, 1, 1], [3, 1], [2, 1, 1], [1, 1, 1, 1]] ∧
    (calculate_partitions 4 initState).1.length = 7 ∧
    ¬ (calculate_partitions 4 initState).1.Nodup ∧
    (calculate_partitions 0 initState).1.length = 1 ∧
    (calculate_partitions 1 initState).1.length = 1 ∧
    (calculate_partitions 2 initState).1.length = 2 ∧
    (calculate_partitions 3 initState).1.length = 3 :=
  ⟨by decide, by decide, by decide, by decide, by decide, by decide, by decide⟩

/-- C3, counterexample: the claim promises no out-of-bounds `rho[0]`
access for mismatched sums, but `char_value([3], [1])` recurses into
`char_value([2], [])`, where the sum of lambda is still 2 and the
normalized rho is empty, so `rho[0]` is read out of bounds (modelled as
`none`). -/
theorem c3_counterexample_oob_read :
    char_value [3] [1] [] = none ∧ List.sum [3] ≠ List.sum [1] :=
  ⟨by decide, by decide⟩

/-- C4, counterexample: for lambda = [3,1] and strip length 2 the code
returns exactly one pair, not two as claimed. -/
theorem c4_counterexample_not_two_pairs :
    (get_border_strips [3, 1] 2).length ≠ 2 := by decide

/-- C4, amended: for lambda = [3,1] and strip length 2, `get_border_strips`
returns exactly one pair, removing the two last cells of the top row
(lambda* = [1,1], strip = [2,0]); the removal described by the spec as
"the bottom row plus one cell" is not edge-connected and is not
returned. -/
theorem c4_amended_exactly_one_pair :
    get_border_strips [3, 1] 2 = [⟨[1, 1], [2, 0]⟩] := by decide

/-- C5 (refuted by the code): on the non-increasing input [1,1,0,0] with
trailing zeros and strip length 2, the sweep decrements the zero rows, the
`size_t` values wrap around to 2^64 - 1, and a second garbage pair is
emitted whose `partition` is not non-increasing and which does not satisfy
lambda* + xi = lambda row-wise. -/
theorem c5_wraparound_at_failing_input :
    get_border_strips [1, 1, 0, 0] 2 =
      [⟨[0, 0, 0, 0], [1, 1, 0, 0]⟩,
       ⟨[1, 1, 18446744073709551615, 18446744073709551615], [0, 0, 1, 1]⟩] ∧
    ¬ NonIncW [1, 1, 18446744073709551615, 18446744073709551615] ∧
    wget [1, 1, 18446744073709551615, 18446744073709551615] 2 + wget [0, 0, 1, 1] 2 ≠
      wget [1, 1, 0, 0] 2 := by
  refine ⟨by decide, ?_, by decide⟩
  intro hcon
  have h1 := hcon 1
  revert h1
  decide

/-- C10: whenever the normalized rho is non-empty, the normalized lambda
has sum at least 2, the pair is not cached yet, and the border-strip
enumeration returns no pairs (for example because `rho[0]` exceeds the sum
of lambda), `char_value` returns 0 and stores that 0 in the cache under
the normalized key pair. -/
theorem c10_no_strips_returns_zero_and_caches
    (lambda rho : List Nat) (r0 : Nat) (rtl : List Nat) (c : Cache)
    (hr : correct_partition rho = r0 :: rtl)
    (h2 : 2 ≤ SumSz (correct_partition lambda))
    (hs : get_border_strips (correct_partition lambda) (i32ofSz r0) = [])
    (hc : cacheFind c (correct_partition lambda) (correct_partition rho) = none) :
    char_value lambda rho c =
      some (0, cacheStore (cacheTouch c (correct_partition lambda))
        (correct_partition lambda) (correct_partition rho) 0) ∧
    cacheFind (cacheStore (cacheTouch c (correct_partition lambda))
      (correct_partition lambda) (correct_partition rho) 0)
      (correct_partition lambda) (correct_partition rho) = some 0 := by
  constructor
  · show char_valueAux (rho.length + 1) lambda rho c = _
    rw [char_valueAux_succ, if_neg (by omega)]
    have hf : cacheFind (cacheTouch c (correct_partition lambda)) (correct_partition lambda)
        (correct_partition rho) = none := by
      rw [cacheFind_touch]
      exact hc
    rw [hf, hr]
    simp only [hs, charFoldF]
  · exact cacheFind_store_self _ _ _ _

/-- C10, witness: lambda = [2], rho = [3,3] (so that rho[0] = 3 exceeds
the sum 2 of lambda and no strips exist) on the empty cache. -/
theorem c10_no_strips_returns_zero_and_caches_witness :
    char_value [2] [3, 3] [] =
      some (0, cacheStore (cacheTouch [] (correct_partition [2])) (correct_partition [2])
        (correct_partition [3, 3]) 0) ∧
    cacheFind (cacheStore (cacheTouch [] (correct_partition [2])) (correct_partition [2])
      (correct_partition [3, 3]) 0) (correct_partition [2]) (correct_partition [3, 3]) = some 0 :=
  c10_no_strips_returns_zero_and_caches [2] [3, 3] 3 [3] []
    (by decide) (by decide) (by decide) (by decide)

/-! ### Sum bookkeeping helpers for the sweep -/

lemma sum_wset {l : List Nat} {i : Nat} (v : Nat) (h : i < l.length) :
    (wset l i v).sum + wget l i = l.sum + v := by
  rw [sum_eq_wget_range (wset l i v), sum_eq_wget_range l, length_wset]
  have hsplit : ∀ j ∈ Finset.range l.length,
      wget (wset l i v) j = Function.update (fun k => wget l k) i v j := by
    intro j _
    rw [Function.update_apply, wget_wset v]
    by_cases hij : i = j
    · rw [if_pos ⟨hij, h⟩, if_pos hij.symm]
    · rw [if_neg (fun hc => hij hc.1), if_neg (fun hc => hij hc.symm)]
  rw [Finset.sum_congr rfl hsplit,
    Finset.sum_update_of_mem (Finset.mem_range.mpr h)]
  have h2 : wget l i + ∑ x ∈ Finset.range l.length \ {i}, wget l x
      = ∑ x ∈ Finset.range l.length, wget l x := by
    simpa [Finset.erase_eq] using Finset.add_sum_erase (Finset.range l.length)
      (fun k => wget l k) (Finset.mem_range.mpr h)
  omega

lemma sum_after_bump {xi xi' : List Nat} (hlen : xi'.length = xi.length) {a b : Nat}
    (hab : a ≤ b) (hb : b ≤ xi.length)
    (hout : ∀ i, i < a ∨ b ≤ i → wget xi' i = wget xi i)
    (hin : ∀ i, a ≤ i → i < b → wget xi' i = wget xi i + 1) :
    xi'.sum = xi.sum + (b - a) := by
  rw [sum_eq_wget_range xi', sum_eq_wget_range xi, hlen]
  have hc : ∀ i ∈ Finset.range xi.length,
      wget xi' i = wget xi i + (if a ≤ i ∧ i < b then 1 else 0) := by
    intro i _
    by_cases hi : a ≤ i ∧ i < b
    · rw [hin i hi.1 hi.2, if_pos hi]
    · rw [hout i (by omega), if_neg hi]
      omega
  rw [Finset.sum_congr rfl hc, Finset.sum_add_distrib]
  congr 1
  have h2 : ∀ i ∈ Finset.range xi.length,
      (if a ≤ i ∧ i < b then (1 : Nat) else 0) = if i ∈ Finset.Ico a b then 1 else 0 := by
    intro i _
    by_cases hi : a ≤ i ∧ i < b
    · rw [if_pos hi, if_pos (Finset.mem_Ico.mpr hi)]
    · rw [if_neg hi, if_neg (fun hmem => hi (Finset.mem_Ico.mp hmem))]
  rw [Finset.sum_congr rfl h2, Finset.sum_ite_mem]
  have hsub : Finset.range xi.length ∩ Finset.Ico a b = Finset.Ico a b := by
    apply Finset.inter_eq_right.mpr
    intro x hx
    exact Finset.mem_range.mpr (lt_of_lt_of_le (Finset.mem_Ico.mp hx).2 hb)
  rw [hsub]
  simp

lemma sum_single_support {l : List Nat} {j : Nat} (h : ∀ i, i ≠ j → wget l i = 0) :
    l.sum = wget l j := by
  rcases lt_or_ge j l.length with hj | hj
  · rw [sum_eq_wget_range]
    exact Finset.sum_eq_single j (fun b _ hb => h b hb)
      (fun hc => absurd (Finset.mem_range.mpr hj) hc)
  · have hz : wget l j = 0 := wget_of_le hj
    rw [hz, sum_eq_wget_range]
    apply Finset.sum_eq_zero
    intro i _
    by_cases hij : i = j
    · rw [hij]
      exact hz
    · exact h i hij

/-! ### Behaviour of the inner loops of the sweep -/

lemma runWhile_spec (fuel : Nat) :
    ∀ (s : BSState) (v : Nat), s.lam.length ≤ s.row + fuel → s.lam.length ≤ s.xi.length →
    (runWhile v fuel s).lam = s.lam ∧
    (runWhile v fuel s).fnz = s.fnz ∧
    (runWhile v fuel s).result = s.result ∧
    (runWhile v fuel s).bs = s.bs - (((runWhile v fuel s).row : Int) - (s.row : Int)) ∧
    (runWhile v fuel s).xi.length = s.xi.length ∧
    s.row ≤ (runWhile v fuel s).row ∧
    (runWhile v fuel s).row ≤ max s.row s.lam.length ∧
    (∀ i, i < s.row ∨ (runWhile v fuel s).row ≤ i →
      wget (runWhile v fuel s).xi i = wget s.xi i) ∧
    (∀ i, s.row ≤ i → i < (runWhile v fuel s).row →
      wget (runWhile v fuel s).xi i = szAdd (wget s.xi i) 1) ∧
    (∀ i, s.row ≤ i → i < (runWhile v fuel s).row → wget s.lam i = v) ∧
    ¬ ((runWhile v fuel s).row < s.lam.length ∧ wget s.lam (runWhile v fuel s).row = v) := by
  induction fuel with
  | zero =>
    intro s v h hxl
    have hstep : runWhile v 0 s = s := rfl
    rw [hstep]
    refine ⟨rfl, rfl, rfl, by push_cast; ring, rfl, le_refl _, le_max_left _ _,
      fun i _ => rfl, fun i h1 h2 => absurd h2 (by omega), fun i h1 h2 => absurd h2 (by omega),
      fun hcon => by omega⟩
  | succ fuel ih =>
    intro s v h hxl
    by_cases hcond : s.row < s.lam.length ∧ wget s.lam s.row = v
    · have hstep : runWhile v (fuel + 1) s = runWhile v fuel { s with bs := s.bs - 1, xi := wset s.xi s.row (szAdd (wget s.xi s.row) 1), row := s.row + 1 } := by
        rw [runWhile]
        exact if_pos hcond
      rw [hstep]
      obtain ⟨e1, e2, e3, e4, e5, e6, e7, e8, e9, e10, e11⟩ :=
        ih { s with bs := s.bs - 1, xi := wset s.xi s.row (szAdd (wget s.xi s.row) 1), row := s.row + 1 } v (by simp only []; omega)
          (by simp only [length_wset]; exact hxl)
      simp only [] at e1 e2 e3 e4 e5 e6 e7 e8 e9 e10 e11
      refine ⟨e1, e2, e3, by omega, by rw [e5, length_wset], by omega, ?_, ?_, ?_, ?_, ?_⟩
      · rcases hcond with ⟨hc1, _⟩
        omega
      · intro i hi
        have hne : s.row ≠ i := by omega
        rcases hi with hi | hi
        · rw [e8 i (Or.inl (by omega)), wget_wset_ne _ hne]
        · rw [e8 i (Or.inr hi), wget_wset_ne _ hne]
      · intro i h1 h2
        by_cases hir : i = s.row
        · subst hir
          rw [e8 s.row (Or.inl (by omega)), wget_wset_self _ (by omega)]
        · rw [e9 i (by omega) h2, wget_wset_ne _ (by omega)]
      · intro i h1 h2
        by_cases hir : i = s.row
        · subst hir
          exact hcond.2
        · exact e10 i (by omega) h2
      · exact e11
    · have hstep : runWhile v (fuel + 1) s = s := by
        rw [runWhile]
        exact if_neg hcond
      rw [hstep]
      refine ⟨rfl, rfl, rfl, by push_cast; ring, rfl, le_refl _, le_max_left _ _,
        fun i _ => rfl, fun i h1 h2 => absurd h2 (by omega), fun i h1 h2 => absurd h2 (by omega),
        hcond⟩

lemma decRange_spec : ∀ (count : Nat) (l : List Nat) (a : Nat), a + count ≤ l.length →
    (decRange l a count).length = l.length ∧
    (∀ i, i < a ∨ a + count ≤ i → wget (decRange l a count) i = wget l i) ∧
    (∀ i, a ≤ i → i < a + count → wget (decRange l a count) i = szSub (wget l i) 1) := by
  intro count
  induction count with
  | zero =>
    intro l a _
    exact ⟨rfl, fun i _ => rfl, fun i h1 h2 => absurd h2 (by omega)⟩
  | succ count ih =>
    intro l a hlen
    have hstep : decRange l a (count + 1) =
        decRange (wset l a (szSub (wget l a) 1)) (a + 1) count := rfl
    rw [hstep]
    obtain ⟨e1, e2, e3⟩ := ih (wset l a (szSub (wget l a) 1)) (a + 1)
      (by rw [length_wset]; omega)
    refine ⟨by rw [e1, length_wset], ?_, ?_⟩
    · intro i hi
      have hne : a ≠ i := by omega
      rcases hi with hi | hi
      · rw [e2 i (Or.inl (by omega)), wget_wset_ne _ hne]
      · rw [e2 i (Or.inr (by omega)), wget_wset_ne _ hne]
    · intro i h1 h2
      by_cases hia : i = a
      · subst hia
        rw [e2 i (Or.inl (by omega)), wget_wset_self _ (by omega)]
      · rw [e3 i (by omega) (by omega), wget_wset_ne _ (by omega)]

/-! ### Invariant preservation through the pieces of the sweep -/

lemma wget_lam0_lt {lam0 : List Nat} {m : Int} (good : GoodIn lam0 m) (i : Nat) :
    wget lam0 i < 2 ^ 31 :=
  lt_of_le_of_lt (wget_le_sum lam0 i) good.hsum

lemma two31_lt_szW : (2 : Nat) ^ 31 < szW := by norm_num [szW]

lemma refundWhile_inv {lam0 : List Nat} {m : Int} (good : GoodIn lam0 m) :
    ∀ (fuel : Nat) (s : BSState), BSInv lam0 m s → BSInv lam0 m (refundWhile fuel s) := by
  intro fuel
  induction fuel with
  | zero => intro s hInv; exact hInv
  | succ fuel ih =>
    intro s hInv
    by_cases hbs : s.bs < 0
    · have hstep : refundWhile (fuel + 1) s = refundWhile fuel { s with lam := wset s.lam s.fnz (szAdd (wget s.lam s.fnz) (wget s.xi s.fnz)), bs := s.bs + i32ofSz (wget s.xi s.fnz), xi := wset s.xi s.fnz 0, fnz := s.fnz + 1 } := by
        rw [refundWhile]
        exact if_pos hbs
      rw [hstep]
      apply ih
      obtain ⟨hlenL, hlenX, hadd, hbsum, hmono, hfnz, hxiHigh, hlamHigh, hfr, hxm, hres⟩ := hInv
      -- the refund never happens with fnz = row: the support is then a
      -- single entry of size at most m, so the budget is non-negative
      have hfrlt : s.fnz < s.row := by
        rcases Nat.lt_or_ge s.fnz s.row with h | h
        · exact h
        · exfalso
          have hsupp : ∀ i, i ≠ s.row → wget s.xi i = 0 := by
            intro i hi
            rcases Nat.lt_or_ge i s.row with h1 | h1
            · exact hfnz i (by omega)
            · exact hxiHigh i (by omega)
          have hsum := sum_single_support hsupp
          omega
      have hXle : wget s.xi s.fnz ≤ wget lam0 s.fnz := by
        have := hadd s.fnz
        omega
      have hL0 := wget_lam0_lt good s.fnz
      have hi32 : i32ofSz (wget s.xi s.fnz) = (wget s.xi s.fnz : Int) :=
        i32ofSz_eq (by omega)
      have hszAdd : szAdd (wget s.lam s.fnz) (wget s.xi s.fnz) = wget lam0 s.fnz := by
        rw [szAdd_eq (by have h1 := hadd s.fnz; have h2 := two31_lt_szW; omega)]
        exact hadd s.fnz
      have hlam' : ∀ i, wget (wset s.lam s.fnz (szAdd (wget s.lam s.fnz) (wget s.xi s.fnz))) i
          = if i = s.fnz then wget lam0 i else wget s.lam i := by
        intro i
        rw [wget_wset]
        by_cases hif : i = s.fnz
        · by_cases hin : s.fnz < s.lam.length
          · rw [if_pos ⟨hif.symm, hin⟩, if_pos hif, hszAdd, hif]
          · rw [if_neg (fun hc => hin hc.2), if_pos hif,
              wget_of_le (show s.lam.length ≤ i by omega),
              wget_of_le (show lam0.length ≤ i by omega)]
        · rw [if_neg (fun hc => hif hc.1.symm), if_neg hif]
      have hxi' : ∀ i, wget (wset s.xi s.fnz 0) i = if i = s.fnz then 0 else wget s.xi i := by
        intro i
        rw [wget_wset]
        by_cases hif : i = s.fnz
        · by_cases hin : s.fnz < s.xi.length
          · rw [if_pos ⟨hif.symm, hin⟩, if_pos hif]
          · rw [if_neg (fun hc => hin hc.2), if_pos hif,
              wget_of_le (show s.xi.length ≤ i by omega)]
        · rw [if_neg (fun hc => hif hc.1.symm), if_neg hif]
      have hS : (wset s.xi s.fnz 0).sum + wget s.xi s.fnz = s.xi.sum := by
        rcases Nat.lt_or_ge s.fnz s.xi.length with h | h
        · have := sum_wset 0 h
          omega
        · have h1 : wset s.xi s.fnz 0 = s.xi := List.set_eq_of_length_le (by omega)
          rw [h1, wget_of_le h]
          omega
      refine ⟨by simp only [length_wset]; exact hlenL, by simp only [length_wset]; exact hlenX,
        ?_, ?_, ?_, ?_, ?_, ?_, ?_, ?_, ?_⟩
      · intro i
        simp only []
        rw [hlam' i, hxi' i]
        by_cases hif : i = s.fnz
        · rw [if_pos hif, if_pos hif]
          omega
        · rw [if_neg hif, if_neg hif]
          exact hadd i
      · simp only [hi32]
        omega
      · intro i
        simp only []
        rw [hlam' (i + 1), hlam' i]
        by_cases h1 : i + 1 = s.fnz
        · rw [if_pos h1, if_neg (by omega)]
          have hxz : wget s.xi i = 0 := hfnz i (by omega)
          have hlz : wget s.lam i = wget lam0 i := by
            have := hadd i
            omega
          rw [hlz]
          exact good.hmono i
        · rw [if_neg h1]
          by_cases h2 : i = s.fnz
          · rw [if_pos h2]
            have h3 : wget s.lam (i + 1) ≤ wget lam0 (i + 1) := by
              have := hadd (i + 1)
              omega
            have h4 := good.hmono i
            omega
          · rw [if_neg h2]
            exact hmono i
      · intro i hi
        simp only [] at hi ⊢
        rw [hxi' i]
        by_cases hif : i = s.fnz
        · rw [if_pos hif]
        · rw [if_neg hif]
          exact hfnz i (by omega)
      · intro i hi
        simp only [] at hi ⊢
        rw [hxi' i]
        by_cases hif : i = s.fnz
        · rw [if_pos hif]
        · rw [if_neg hif]
          exact hxiHigh i hi
      · intro i hi
        simp only [] at hi ⊢
        rw [hlam' i, if_neg (by omega)]
        exact hlamHigh i hi
      · simp only []
        omega
      · simp only []
        rw [hxi' s.row, if_neg (by omega)]
        exact hxm
      · exact hres
    · have hstep : refundWhile (fuel + 1) s = s := by
        rw [refundWhile]
        exact if_neg hbs
      rw [hstep]
      exact hInv

lemma emitCheck_inv {lam0 : List Nat} {m : Int} (good : GoodIn lam0 m) (s : BSState)
    (hInv : BSInv lam0 m s) : BSInv lam0 m (emitCheck s) := by
  obtain ⟨hlenL, hlenX, hadd, hbsum, hmono, hfnz, hxiHigh, hlamHigh, hfr, hxm, hres⟩ := hInv
  by_cases hbs0 : s.bs = 0
  · have hXle : wget s.xi s.fnz ≤ wget lam0 s.fnz := by
      have := hadd s.fnz
      omega
    have hL0 := wget_lam0_lt good s.fnz
    have hi32 : i32ofSz (wget s.xi s.fnz) = (wget s.xi s.fnz : Int) := i32ofSz_eq (by omega)
    have hszAdd : szAdd (wget s.lam s.fnz) (wget s.xi s.fnz) = wget lam0 s.fnz := by
      rw [szAdd_eq (by have h1 := hadd s.fnz; have h2 := two31_lt_szW; omega)]
      exact hadd s.fnz
    have hlam' : ∀ i, wget (wset s.lam s.fnz (szAdd (wget s.lam s.fnz) (wget s.xi s.fnz))) i
        = if i = s.fnz then wget lam0 i else wget s.lam i := by
      intro i
      rw [wget_wset]
      by_cases hif : i = s.fnz
      · by_cases hin : s.fnz < s.lam.length
        · rw [if_pos ⟨hif.symm, hin⟩, if_pos hif, hszAdd, hif]
        · rw [if_neg (fun hc => hin hc.2), if_pos hif,
            wget_of_le (show s.lam.length ≤ i by omega),
            wget_of_le (show lam0.length ≤ i by omega)]
      · rw [if_neg (fun hc => hif hc.1.symm), if_neg hif]
    have hxi' : ∀ i, wget (wset s.xi s.fnz 0) i = if i = s.fnz then 0 else wget s.xi i := by
      intro i
      rw [wget_wset]
      by_cases hif : i = s.fnz
      · by_cases hin : s.fnz < s.xi.length
        · rw [if_pos ⟨hif.symm, hin⟩, if_pos hif]
        · rw [if_neg (fun hc => hin hc.2), if_pos hif, wget_of_le (show s.xi.length ≤ i by omega)]
      · rw [if_neg (fun hc => hif hc.1.symm), if_neg hif]
    have hS : (wset s.xi s.fnz 0).sum + wget s.xi s.fnz = s.xi.sum := by
      rcases Nat.lt_or_ge s.fnz s.xi.length with h | h
      · have := sum_wset 0 h
        omega
      · have h1 : wset s.xi s.fnz 0 = s.xi := List.set_eq_of_length_le (by omega)
        rw [h1, wget_of_le h]
        omega
    have hpair : StripOK lam0 m ⟨s.lam, s.xi⟩ :=
      ⟨hlenL, hlenX, hadd, by rw [← hbsum, hbs0]; ring, hmono⟩
    have hs1 : BSInv lam0 m { s with result := s.result ++ [⟨s.lam, s.xi⟩], lam := wset s.lam s.fnz (szAdd (wget s.lam s.fnz) (wget s.xi s.fnz)), bs := s.bs + i32ofSz (wget s.xi s.fnz), xi := wset s.xi s.fnz 0 } := by
      refine ⟨by simp only [length_wset]; exact hlenL, by simp only [length_wset]; exact hlenX,
        ?_, ?_, ?_, ?_, ?_, ?_, ?_, ?_, ?_⟩
      · intro i
        simp only []
        rw [hlam' i, hxi' i]
        by_cases hif : i = s.fnz
        · rw [if_pos hif, if_pos hif]
          omega
        · rw [if_neg hif, if_neg hif]
          exact hadd i
      · simp only [hi32]
        omega
      · intro i
        simp only []
        rw [hlam' (i + 1), hlam' i]
        by_cases h1 : i + 1 = s.fnz
        · rw [if_pos h1, if_neg (by omega)]
          have hxz : wget s.xi i = 0 := hfnz i (by omega)
          have hlz : wget s.lam i = wget lam0 i := by
            have := hadd i
            omega
          rw [hlz]
          exact good.hmono i
        · rw [if_neg h1]
          by_cases h2 : i = s.fnz
          · rw [if_pos h2]
            have h3 : wget s.lam (i + 1) ≤ wget lam0 (i + 1) := by
              have := hadd (i + 1)
              omega
            have h4 := good.hmono i
            omega
          · rw [if_neg h2]
            exact hmono i
      · intro i hi
        simp only [] at hi ⊢
        rw [hxi' i]
        by_cases hif : i = s.fnz
        · rw [if_pos hif]
        · rw [if_neg hif]
          exact hfnz i hi
      · intro i hi
        simp only [] at hi ⊢
        rw [hxi' i]
        by_cases hif : i = s.fnz
        · rw [if_pos hif]
        · rw [if_neg hif]
          exact hxiHigh i hi
      · intro i hi
        simp only [] at hi ⊢
        rw [hlam' i]
        by_cases hif : i = s.fnz
        · rw [if_pos hif]
        · rw [if_neg hif]
          exact hlamHigh i hi
      · simp only []
        exact hfr
      · simp only []
        rw [hxi' s.row]
        by_cases hif : s.row = s.fnz
        · rw [if_pos hif]
          have := good.hm1
          omega
        · rw [if_neg hif]
          exact hxm
      · simp only []
        intro p hp
        rcases List.mem_append.mp hp with hp | hp
        · exact hres p hp
        · rw [List.mem_singleton.mp hp]
          exact hpair
    have hunf : emitCheck s = (if s.row = s.fnz then { s with result := s.result ++ [⟨s.lam, s.xi⟩], lam := wset s.lam s.fnz (szAdd (wget s.lam s.fnz) (wget s.xi s.fnz)), bs := s.bs + i32ofSz (wget s.xi s.fnz), xi := wset s.xi s.fnz 0, row := s.row + 1, fnz := s.fnz + 1 } else { s with result := s.result ++ [⟨s.lam, s.xi⟩], lam := wset s.lam s.fnz (szAdd (wget s.lam s.fnz) (wget s.xi s.fnz)), bs := s.bs + i32ofSz (wget s.xi s.fnz), xi := wset s.xi s.fnz 0 }) := by
      unfold emitCheck
      rw [if_pos hbs0]
    rw [hunf]
    by_cases hadv : s.row = s.fnz
    · rw [if_pos hadv]
      obtain ⟨g1, g2, g3, g4, g5, g6, g7, g8, g9, g10, g11⟩ := hs1
      simp only [] at g1 g2 g3 g4 g5 g6 g7 g8 g9 g10 g11
      refine ⟨g1, g2, g3, g4, g5, ?_, ?_, ?_, ?_, ?_, g11⟩
      · intro i hi
        simp only [] at hi ⊢
        by_cases hif : i = s.fnz
        · rw [hif, hxi' s.fnz, if_pos rfl]
        · exact g6 i (by omega)
      · intro i hi
        simp only [] at hi ⊢
        exact g7 i (by omega)
      · intro i hi
        simp only [] at hi ⊢
        exact g8 i (by omega)
      · simp only []
        omega
      · simp only []
        rw [hxi' (s.row + 1), if_neg (by omega)]
        rw [hxiHigh (s.row + 1) (by omega)]
        have := good.hm1
        omega
    · rw [if_neg hadv]
      exact hs1
  · have hstep : emitCheck s = s := by
      unfold emitCheck
      rw [if_neg hbs0]
    rw [hstep]
    exact ⟨hlenL, hlenX, hadd, hbsum, hmono, hfnz, hxiHigh, hlamHigh, hfr, hxm, hres⟩

lemma leftStep_inv {lam0 : List Nat} {m : Int} (good : GoodIn lam0 m) {s : BSState}
    (hInv : BSInv lam0 m s) (hbs : 0 < s.bs) (hrow : s.row < s.lam.length) {step : Int}
    (h0 : 0 ≤ step) (hsb : step ≤ s.bs)
    (hstep : step.toNat + wget s.lam (s.row + 1) ≤ wget s.lam s.row) :
    BSInv lam0 m { s with bs := s.bs - step, lam := wset s.lam s.row (szSub (wget s.lam s.row) (szI step)), xi := wset s.xi s.row (szAddI (wget s.xi s.row) step) } := by
  obtain ⟨hlenL, hlenX, hadd, hbsum, hmono, hfnz, hxiHigh, hlamHigh, hfr, hxm, hres⟩ := hInv
  have hL0 := wget_lam0_lt good s.row
  have hW := two31_lt_szW
  have hW2 : (2 : Nat) ^ 32 < szW := by norm_num [szW]
  have hA : wget s.lam s.row ≤ wget lam0 s.row := by
    have := hadd s.row
    omega
  have hX : wget s.xi s.row ≤ wget lam0 s.row := by
    have := hadd s.row
    omega
  have hstep31 : step.toNat ≤ wget lam0 s.row := by omega
  have hszI : szI step = step.toNat := szI_eq_toNat h0 (by
    have : (step.toNat : Int) = step := Int.toNat_of_nonneg h0
    omega)
  have hsub : szSub (wget s.lam s.row) (szI step) = wget s.lam s.row - step.toNat := by
    rw [hszI]
    exact szSub_eq (by omega) (by omega)
  have haddi : szAddI (wget s.xi s.row) step = wget s.xi s.row + step.toNat := by
    unfold szAddI
    have h1 : (wget s.xi s.row : Int) + step = ((wget s.xi s.row + step.toNat : Nat) : Int) := by
      have : (step.toNat : Int) = step := Int.toNat_of_nonneg h0
      push_cast
      omega
    rw [h1, szI_coe (by omega)]
  have hrx : s.row < s.xi.length := by omega
  have hlam' : ∀ i, wget (wset s.lam s.row (szSub (wget s.lam s.row) (szI step))) i
      = if i = s.row then wget s.lam s.row - step.toNat else wget s.lam i := by
    intro i
    rw [wget_wset]
    by_cases hif : i = s.row
    · rw [if_pos ⟨hif.symm, by omega⟩, if_pos hif, hsub]
    · rw [if_neg (fun hc => hif hc.1.symm), if_neg hif]
  have hxi' : ∀ i, wget (wset s.xi s.row (szAddI (wget s.xi s.row) step)) i
      = if i = s.row then wget s.xi s.row + step.toNat else wget s.xi i := by
    intro i
    rw [wget_wset]
    by_cases hif : i = s.row
    · rw [if_pos ⟨hif.symm, hrx⟩, if_pos hif, haddi]
    · rw [if_neg (fun hc => hif hc.1.symm), if_neg hif]
  have hS : (wset s.xi s.row (szAddI (wget s.xi s.row) step)).sum + wget s.xi s.row
      = s.xi.sum + (wget s.xi s.row + step.toNat) := by
    rw [← haddi]
    exact sum_wset _ hrx
  have hXs : wget s.xi s.row ≤ s.xi.sum := wget_le_sum _ _
  refine ⟨by simp only [length_wset]; exact hlenL, by simp only [length_wset]; exact hlenX,
    ?_, ?_, ?_, ?_, ?_, ?_, ?_, ?_, ?_⟩
  · intro i
    simp only []
    rw [hlam' i, hxi' i]
    by_cases hif : i = s.row
    · rw [if_pos hif, if_pos hif, hif]
      have := hadd s.row
      omega
    · rw [if_neg hif, if_neg hif]
      exact hadd i
  · simp only []
    have hts : (step.toNat : Int) = step := Int.toNat_of_nonneg h0
    have hS3 : (wset s.xi s.row (szAddI (wget s.xi s.row) step)).sum
        = s.xi.sum + step.toNat := by omega
    rw [hS3, Nat.cast_add, hts]
    omega
  · intro i
    simp only []
    rw [hlam' (i + 1), hlam' i]
    by_cases h1 : i + 1 = s.row
    · rw [if_pos h1, if_neg (by omega)]
      have := hmono i
      rw [h1] at this
      omega
    · rw [if_neg h1]
      by_cases h2 : i = s.row
      · rw [if_pos h2]
        have := hmono i
        rw [h2] at this ⊢
        omega
      · rw [if_neg h2]
        exact hmono i
  · intro i hi
    simp only [] at hi ⊢
    rw [hxi' i, if_neg (by omega)]
    exact hfnz i hi
  · intro i hi
    simp only [] at hi ⊢
    rw [hxi' i, if_neg (by omega)]
    exact hxiHigh i hi
  · intro i hi
    simp only [] at hi ⊢
    rw [hlam' i, if_neg (by omega)]
    exact hlamHigh i hi
  · simp only []
    exact hfr
  · simp only []
    rw [hxi' s.row, if_pos rfl]
    have hts : (step.toNat : Int) = step := Int.toNat_of_nonneg h0
    push_cast
    omega
  · exact hres

lemma downStep_s2_inv {lam0 : List Nat} {m : Int} (good : GoodIn lam0 m) {s : BSState}
    (hInv : BSInv lam0 m s) (hbs : 0 < s.bs) (hrow : s.row < s.lam.length)
    (hnl : ¬ (s.row + 1 = s.lam.length)) (hnd : ¬ (wget s.lam (s.row + 1) < wget s.lam s.row)) :
    BSInv lam0 m { runWhile (wget s.lam s.row) (s.lam.length + 1 - s.row) s with lam := decRange (runWhile (wget s.lam s.row) (s.lam.length + 1 - s.row) s).lam s.row ((runWhile (wget s.lam s.row) (s.lam.length + 1 - s.row) s).row - s.row), row := (runWhile (wget s.lam s.row) (s.lam.length + 1 - s.row) s).row - 1 } := by
  obtain ⟨hlenL, hlenX, hadd, hbsum, hmono, hfnz, hxiHigh, hlamHigh, hfr, hxm, hres⟩ := hInv
  obtain ⟨r1, r2, r3, r4, r5, r6, r7, r8, r9, r10, r11⟩ :=
    runWhile_spec (s.lam.length + 1 - s.row) s (wget s.lam s.row) (by omega) (by omega)
  generalize hT : runWhile (wget s.lam s.row) (s.lam.length + 1 - s.row) s = T
    at r1 r2 r3 r4 r5 r6 r7 r8 r9 r10 r11 ⊢
  have htrow : s.row < T.row := by
    rcases Nat.eq_or_lt_of_le r6 with h | h
    · exfalso
      apply r11
      constructor
      · rw [← h]
        exact hrow
      · rw [← h]
    · exact h
  have htle : T.row ≤ s.lam.length := by
    have hmax : max s.row s.lam.length = s.lam.length := max_eq_right (le_of_lt hrow)
    omega
  have hveq : wget s.lam (s.row + 1) = wget s.lam s.row :=
    le_antisymm (hmono s.row) (not_lt.mp hnd)
  have hrow1 : s.row + 1 < s.lam.length := by omega
  have hv1 : 1 ≤ wget s.lam s.row := by
    rw [← hveq, hlamHigh (s.row + 1) (by omega)]
    exact good.hpos (s.row + 1) (by omega)
  have hvlt : wget s.lam s.row < 2 ^ 31 := by
    have h1 := wget_lam0_lt good s.row
    have h2 := hadd s.row
    omega
  have hW := two31_lt_szW
  obtain ⟨d1, d2, d3⟩ := decRange_spec (T.row - s.row) T.lam s.row (by rw [r1]; omega)
  have hxiB : ∀ i, s.row ≤ i → i < T.row → wget T.xi i = wget s.xi i + 1 := by
    intro i ha hb
    rw [r9 i ha hb]
    have h1 := wget_lam0_lt good i
    have h2 := hadd i
    exact szAdd_eq (by omega)
  have hlamB : ∀ i, s.row ≤ i → i < T.row →
      wget (decRange T.lam s.row (T.row - s.row)) i = wget s.lam s.row - 1 := by
    intro i ha hb
    rw [d3 i ha (by omega), r1, r10 i ha hb]
    exact szSub_eq (by omega) (by omega)
  have hlamOut : ∀ i, i < s.row ∨ T.row ≤ i →
      wget (decRange T.lam s.row (T.row - s.row)) i = wget s.lam i := by
    intro i hi
    rcases hi with hi | hi
    · rw [d2 i (Or.inl hi), r1]
    · rw [d2 i (Or.inr (by omega)), r1]
  have hSsum : T.xi.sum = s.xi.sum + (T.row - s.row) :=
    sum_after_bump r5 r6 (by omega) r8 hxiB
  have hTltv : T.row < s.lam.length → wget s.lam T.row < wget s.lam s.row := by
    intro h
    have hne : wget s.lam T.row ≠ wget s.lam s.row := fun hc => r11 ⟨h, hc⟩
    have hle : wget s.lam T.row ≤ wget s.lam s.row := nonIncW_mono hmono (le_of_lt htrow)
    omega
  refine ⟨?_, ?_, ?_, ?_, ?_, ?_, ?_, ?_, ?_, ?_, ?_⟩
  · simp only []
    rw [d1, r1]
    exact hlenL
  · simp only []
    rw [r5]
    exact hlenX
  · intro i
    simp only []
    by_cases hin : s.row ≤ i ∧ i < T.row
    · rw [hlamB i hin.1 hin.2, hxiB i hin.1 hin.2]
      have h1 := hadd i
      have h2 := r10 i hin.1 hin.2
      omega
    · have hout : i < s.row ∨ T.row ≤ i := by omega
      rw [hlamOut i hout, r8 i hout]
      exact hadd i
  · simp only []
    rw [hSsum, Nat.cast_add, r4]
    omega
  · intro i
    simp only []
    by_cases c1 : i + 1 < s.row
    · rw [hlamOut (i + 1) (Or.inl c1), hlamOut i (Or.inl (by omega))]
      exact hmono i
    · by_cases c2 : T.row ≤ i
      · rw [hlamOut (i + 1) (Or.inr (by omega)), hlamOut i (Or.inr c2)]
        exact hmono i
      · by_cases c3 : i < s.row
        · have his : i + 1 = s.row := by omega
          rw [hlamB (i + 1) (by omega) (by omega), hlamOut i (Or.inl c3)]
          have h1 := hmono i
          rw [his] at h1
          omega
        · by_cases c4 : i + 1 < T.row
          · rw [hlamB (i + 1) (by omega) c4, hlamB i (by omega) (by omega)]
          · have hiT : i + 1 = T.row := by omega
            rw [hlamOut (i + 1) (Or.inr (by omega)), hlamB i (by omega) (by omega), hiT]
            by_cases c5 : T.row < s.lam.length
            · have := hTltv c5
              omega
            · rw [wget_of_le (by omega)]
              omega
  · intro i hi
    simp only [] at hi ⊢
    rw [r2] at hi
    rw [r8 i (Or.inl (by omega))]
    exact hfnz i hi
  · intro i hi
    simp only [] at hi ⊢
    rw [r8 i (Or.inr (by omega))]
    exact hxiHigh i (by omega)
  · intro i hi
    simp only [] at hi ⊢
    rw [hlamOut i (Or.inr (by omega))]
    exact hlamHigh i (by omega)
  · simp only []
    rw [r2]
    omega
  · simp only []
    rw [hxiB (T.row - 1) (by omega) (by omega)]
    have h1 := wget_le_sum s.xi (T.row - 1)
    push_cast
    omega
  · simp only []
    rw [r3]
    exact hres

lemma bsBranch_inv {lam0 : List Nat} {m : Int} (good : GoodIn lam0 m) (s : BSState)
    (hInv : BSInv lam0 m s) (hbs : 0 < s.bs) (hrow : s.row < s.lam.length) :
    (∀ s', bsBranch s = Sum.inl s' → BSInv lam0 m s') ∧
    (∀ res, bsBranch s = Sum.inr res → ∀ p ∈ res, StripOK lam0 m p) := by
  have hL0 := wget_lam0_lt good s.row
  have hAle : wget s.lam s.row ≤ wget lam0 s.row := by
    have := hInv.hadd s.row
    omega
  by_cases h1 : s.row + 1 = s.lam.length
  · have hi32 : i32ofSz (wget s.lam s.row) = (wget s.lam s.row : Int) := i32ofSz_eq (by omega)
    have hbr : bsBranch s = (if 0 < s.bs - min s.bs (i32ofSz (wget s.lam s.row)) then Sum.inr s.result else Sum.inl { s with bs := s.bs - min s.bs (i32ofSz (wget s.lam s.row)), lam := wset s.lam s.row (szSub (wget s.lam s.row) (szI (min s.bs (i32ofSz (wget s.lam s.row))))), xi := wset s.xi s.row (szAddI (wget s.xi s.row) (min s.bs (i32ofSz (wget s.lam s.row)))) }) := by
      unfold bsBranch
      rw [if_pos h1]
    rw [hbr]
    by_cases h2 : 0 < s.bs - min s.bs (i32ofSz (wget s.lam s.row))
    · rw [if_pos h2]
      constructor
      · intro s' h
        simp at h
      · intro res h
        injection h with h
        rw [← h]
        exact hInv.hres
    · rw [if_neg h2]
      constructor
      · intro s' h
        injection h with h
        rw [← h]
        apply leftStep_inv good hInv hbs hrow
        · rw [hi32]
          exact le_min (by omega) (by positivity)
        · exact min_le_left _ _
        · have hz : wget s.lam (s.row + 1) = 0 := wget_of_le (by omega)
          have hmin : min s.bs (i32ofSz (wget s.lam s.row)) ≤ (wget s.lam s.row : Int) := by
            rw [hi32]
            exact min_le_right _ _
          have h0m : (0 : Int) ≤ min s.bs (i32ofSz (wget s.lam s.row)) := by
            rw [hi32]
            exact le_min (by omega) (by positivity)
          rw [hz]
          omega
      · intro res h
        simp at h
  · by_cases h2 : wget s.lam (s.row + 1) < wget s.lam s.row
    · have hsub : szSub (wget s.lam s.row) (wget s.lam (s.row + 1))
          = wget s.lam s.row - wget s.lam (s.row + 1) :=
        szSub_eq (by omega) (by have := two31_lt_szW; omega)
      have hi32 : i32ofSz (szSub (wget s.lam s.row) (wget s.lam (s.row + 1)))
          = ((wget s.lam s.row - wget s.lam (s.row + 1) : Nat) : Int) := by
        rw [hsub]
        exact i32ofSz_eq (by omega)
      have hbr : bsBranch s = Sum.inl { s with bs := s.bs - min s.bs (i32ofSz (szSub (wget s.lam s.row) (wget s.lam (s.row + 1)))), lam := wset s.lam s.row (szSub (wget s.lam s.row) (szI (min s.bs (i32ofSz (szSub (wget s.lam s.row) (wget s.lam (s.row + 1))))))), xi := wset s.xi s.row (szAddI (wget s.xi s.row) (min s.bs (i32ofSz (szSub (wget s.lam s.row) (wget s.lam (s.row + 1)))))) } := by
        unfold bsBranch
        rw [if_neg h1, if_pos h2]
      rw [hbr]
      constructor
      · intro s' h
        injection h with h
        rw [← h]
        apply leftStep_inv good hInv hbs hrow
        · rw [hi32]
          exact le_min (by omega) (by positivity)
        · exact min_le_left _ _
        · have hmin : min s.bs (i32ofSz (szSub (wget s.lam s.row) (wget s.lam (s.row + 1))))
              ≤ ((wget s.lam s.row - wget s.lam (s.row + 1) : Nat) : Int) := by
            rw [hi32]
            exact min_le_right _ _
          omega
      · intro res h
        simp at h
    · have hbr : bsBranch s = Sum.inl (refundWhile ((runWhile (wget s.lam s.row) (s.lam.length + 1 - s.row) s).xi.length + 1) { runWhile (wget s.lam s.row) (s.lam.length + 1 - s.row) s with lam := decRange (runWhile (wget s.lam s.row) (s.lam.length + 1 - s.row) s).lam s.row ((runWhile (wget s.lam s.row) (s.lam.length + 1 - s.row) s).row - s.row), row := (runWhile (wget s.lam s.row) (s.lam.length + 1 - s.row) s).row - 1 }) := by
        unfold bsBranch
        rw [if_neg h1, if_neg h2]
      rw [hbr]
      constructor
      · intro s' h
        injection h with h
        rw [← h]
        exact refundWhile_inv good _ _ (downStep_s2_inv good hInv hbs hrow h1 h2)
      · intro res h
        simp at h

lemma bsLoop_sound {lam0 : List Nat} {m : Int} (good : GoodIn lam0 m) :
    ∀ (fuel : Nat) (s : BSState), BSInv lam0 m s → ∀ p ∈ bsLoop fuel s, StripOK lam0 m p := by
  intro fuel
  induction fuel with
  | zero =>
    intro s hInv
    rw [bsLoop]
    by_cases hc : 0 < s.bs ∧ s.row < s.lam.length
    · rw [if_pos hc]
      exact hInv.hres
    · rw [if_neg hc]
      exact hInv.hres
  | succ fuel ih =>
    intro s hInv
    rw [bsLoop]
    by_cases hc : 0 < s.bs ∧ s.row < s.lam.length
    · rw [if_pos hc]
      obtain ⟨hinl, hinr⟩ := bsBranch_inv good s hInv hc.1 hc.2
      rcases hB : bsBranch s with s' | res
      · exact ih (emitCheck s') (emitCheck_inv good s' (hinl s' hB))
      · exact hinr res hB
    · rw [if_neg hc]
      exact hInv.hres

lemma get_border_strips_sound {lam0 : List Nat} {m : Int} (good : GoodIn lam0 m) :
    ∀ p ∈ get_border_strips lam0 m, StripOK lam0 m p := by
  apply bsLoop_sound good
  refine ⟨rfl, List.length_replicate _ _, ?_, ?_, good.hmono, ?_, ?_, ?_, le_refl _, ?_, ?_⟩
  · intro i
    simp only [wget_replicate_zero]
    omega
  · simp only [List.sum_replicate, smul_eq_mul, Nat.mul_zero, Nat.cast_zero, add_zero]
  · intro i hi
    exact wget_replicate_zero _ _
  · intro i _
    exact wget_replicate_zero _ _
  · intro i _
    rfl
  · rw [wget_replicate_zero]
    have := good.hm1
    push_cast
    omega
  · intro p hp
    exact absurd hp (List.not_mem_nil p)

/-! ### Consequences of the sweep invariant -/

lemma wget_pos_of_posParts {l : List Nat} (h : PosParts l) {i : Nat} (hi : i < l.length) :
    1 ≤ wget l i := by
  rw [wget_eq_getElem hi]
  exact h _ (List.getElem_mem hi)

lemma goodIn_correct {lambda : List Nat} {r0 : Nat}
    (hsl : lambda.Sorted (fun a b => b ≤ a)) (hbl : lambda.sum < 2 ^ 31)
    (h1 : 1 ≤ r0) (h2 : r0 < 2 ^ 31) :
    GoodIn (correct_partition lambda) ((r0 : Nat) : Int) := by
  refine ⟨nonIncW_of_sorted (sorted_correct hsl), ?_, ?_, ?_, ?_⟩
  · intro i hi
    exact wget_pos_of_posParts (posParts_correct lambda) hi
  · rw [sum_correct]
    exact hbl
  · exact_mod_cast h1
  · exact_mod_cast h2

lemma strip_sum_of_mem {lam0 : List Nat} {m : Int} (good : GoodIn lam0 m)
    {p : PartitionWithoutBorderStrip} (hp : p ∈ get_border_strips lam0 m) :
    (p.partition.sum : Int) = (lam0.sum : Int) - m ∧ NonIncW p.partition ∧
    (∀ i, wget p.partition i ≤ wget lam0 i) ∧ p.partition.length = lam0.length := by
  obtain ⟨hlenL, hlenX, hadd, hsum, hmono⟩ := get_border_strips_sound good p hp
  have hs : p.partition.sum + p.border_strip.sum = lam0.sum :=
    sum_add_of_pointwise hlenL hlenX hadd
  refine ⟨?_, hmono, ?_, hlenL⟩
  · omega
  · intro i
    have := hadd i
    omega

/-- C7: under the spec's machine-integer scoping (sums below 2^31), every
pair returned by the border-strip enumeration at the recursive call site
of `char_value` has a sub-partition of total sum exactly
sum(lambda) - rho[0], which is strictly smaller than sum(lambda) because
the normalized rho[0] is at least 1; hence the recursion of `char_value`
terminates. -/
theorem c7_recursive_calls_strictly_smaller
    (lambda rho : List Nat) (r0 : Nat) (rtl : List Nat)
    (hsl : lambda.Sorted (fun a b => b ≤ a))
    (hbl : lambda.sum < 2 ^ 31) (hbr : rho.sum < 2 ^ 31)
    (hr : correct_partition rho = r0 :: rtl) :
    1 ≤ r0 ∧
    ∀ p ∈ get_border_strips (correct_partition lambda) (i32ofSz r0),
      ((correct_partition p.partition).sum : Int)
          = ((correct_partition lambda).sum : Int) - r0 ∧
        (correct_partition p.partition).sum < (correct_partition lambda).sum := by
  have h1 : 1 ≤ r0 := posParts_head hr
  have h2 : r0 < 2 ^ 31 := by
    have := head_le_sum hr
    omega
  have hgood : GoodIn (correct_partition lambda) ((r0 : Nat) : Int) :=
    goodIn_correct hsl hbl h1 h2
  have hi32 : i32ofSz r0 = (r0 : Int) := i32ofSz_eq h2
  refine ⟨h1, ?_⟩
  intro p hp
  rw [hi32] at hp
  obtain ⟨hsum, hmono, hle, hlen⟩ := strip_sum_of_mem hgood hp
  have hcp : (correct_partition p.partition).sum = p.partition.sum := sum_correct _
  have hcl : (correct_partition (correct_partition lambda)).sum
      = (correct_partition lambda).sum := by rw [correct_idem]
  constructor
  · rw [hcp]
    omega
  · rw [hcp]
    omega

/-- C7, witness: lambda = [2,1], rho = [1,1,1]; the two returned pairs
[1,1] and [2] both have sum 2 = 3 - 1 < 3. -/
theorem c7_recursive_calls_strictly_smaller_witness :
    1 ≤ 1 ∧
    ∀ p ∈ get_border_strips (correct_partition [2, 1]) (i32ofSz 1),
      ((correct_partition p.partition).sum : Int)
          = ((correct_partition [2, 1]).sum : Int) - 1 ∧
        (correct_partition p.partition).sum < (correct_partition [2, 1]).sum := by
  have h := c7_recursive_calls_strictly_smaller [2, 1] [1, 1, 1] 1 [1, 1]
    (by decide) (by decide) (by decide) (by decide)
  exact_mod_cast h

/-! ### Totality of char_value when the sums are compatible -/

lemma charFoldF_total (f : List Nat → Cache → Option (Int × Cache))
    (strips : List PartitionWithoutBorderStrip)
    (hf : ∀ p ∈ strips, ∀ cc : Cache,
      ∃ v cc', f (correct_partition p.partition) cc = some (v, cc')) :
    ∀ (acc : Int) (c : Cache), ∃ res c2, charFoldF f strips acc c = some (res, c2) := by
  induction strips with
  | nil => intro acc c; exact ⟨acc, c, rfl⟩
  | cons p rest ihr =>
    intro acc c
    obtain ⟨v, cc, hv⟩ := hf p (List.mem_cons_self p rest) c
    have hrest : ∀ q ∈ rest, ∀ cc : Cache,
        ∃ v cc', f (correct_partition q.partition) cc = some (v, cc') :=
      fun q hq => hf q (List.mem_cons_of_mem p hq)
    obtain ⟨res, c2, hres⟩ := ihr hrest
      (acc + MinusOnePow (szSub (correct_partition p.border_strip).length 1) * v) cc
    refine ⟨res, c2, ?_⟩
    rw [charFoldF, hv]
    exact hres

lemma char_valueAux_total :
    ∀ (fuel : Nat) (lambda rho : List Nat) (c : Cache),
    (correct_partition rho).length < fuel →
    NonIncW (correct_partition lambda) →
    (correct_partition lambda).sum ≤ (correct_partition rho).sum + 1 →
    (correct_partition lambda).sum < 2 ^ 31 →
    (correct_partition rho).sum < 2 ^ 31 →
    ∃ v c', char_valueAux fuel lambda rho c = some (v, c') := by
  intro fuel
  induction fuel with
  | zero => intro lambda rho c hlen; omega
  | succ fuel ih =>
    intro lambda rho c hlen hl hle hbl hbr
    rw [char_valueAux_succ]
    by_cases h2 : SumSz (correct_partition lambda) < 2
    · rw [if_pos h2]
      exact ⟨1, c, rfl⟩
    · rw [if_neg h2]
      cases hfind : cacheFind (cacheTouch c (correct_partition lambda))
          (correct_partition lambda) (correct_partition rho) with
      | some v => exact ⟨v, cacheTouch c (correct_partition lambda), rfl⟩
      | none =>
        cases hr : correct_partition rho with
        | nil =>
          exfalso
          have hW : (2 : Nat) ^ 31 < szW := by norm_num [szW]
          have hsz : SumSz (correct_partition lambda) = (correct_partition lambda).sum :=
            SumSz_of_lt (by omega)
          have h0 : (correct_partition rho).sum = 0 := by rw [hr]; rfl
          rw [hsz] at h2
          omega
        | cons r0 rtl =>
          have hpos := posParts_correct rho
          rw [hr] at hpos
          have hr0 : 1 ≤ r0 := posParts_head hr
          have hrs : (correct_partition rho).sum = r0 + rtl.sum := by
            rw [hr, List.sum_cons]
          have hr02 : r0 < 2 ^ 31 := by omega
          have hi32 : i32ofSz r0 = (r0 : Int) := i32ofSz_eq hr02
          have hgood : GoodIn (correct_partition lambda) ((r0 : Nat) : Int) := by
            refine ⟨hl, ?_, hbl, ?_, ?_⟩
            · intro i hi
              exact wget_pos_of_posParts (posParts_correct lambda) hi
            · exact_mod_cast hr0
            · exact_mod_cast hr02
          have hposrtl : PosParts rtl := fun x hx => hpos x (List.mem_cons_of_mem _ hx)
          have hcrtl : correct_partition rtl = rtl := correct_of_posParts hposrtl
          have hlenr : rtl.length < fuel := by
            have hleq : (correct_partition rho).length = rtl.length + 1 := by
              rw [hr, List.length_cons]
            omega
          have hf : ∀ p ∈ get_border_strips (correct_partition lambda) (i32ofSz r0),
              ∀ cc : Cache,
              ∃ v cc', char_valueAux fuel (correct_partition p.partition) rtl cc
                = some (v, cc') := by
            intro p hp cc
            rw [hi32] at hp
            obtain ⟨hsum, hmono, hle2, hlen2⟩ := strip_sum_of_mem hgood hp
            have hps : p.partition.sum + r0 = (correct_partition lambda).sum := by
              omega
            apply ih
            · rw [hcrtl]
              exact hlenr
            · rw [correct_idem]
              exact nonIncW_correct hmono
            · rw [sum_correct, sum_correct, hcrtl]
              omega
            · rw [sum_correct, sum_correct]
              omega
            · rw [hcrtl]
              omega
          obtain ⟨res, c2, hfold⟩ := charFoldF_total
            (fun part cc => char_valueAux fuel part rtl cc)
            (get_border_strips (correct_partition lambda) (i32ofSz r0)) hf 0
            (cacheTouch c (correct_partition lambda))
          refine ⟨res, cacheStore c2 (correct_partition lambda) (r0 :: rtl) res, ?_⟩
          show (match charFoldF (fun part cc => char_valueAux fuel part rtl cc)
              (get_border_strips (correct_partition lambda) (i32ofSz r0)) 0
              (cacheTouch c (correct_partition lambda)) with
            | none => none
            | some (res, c2) =>
                some (res, cacheStore c2 (correct_partition lambda) (r0 :: rtl) res))
            = some (res, cacheStore c2 (correct_partition lambda) (r0 :: rtl) res)
          rw [hfold]

/-- C3 (amended): when the sums are compatible — sum(lambda) at most
sum(rho) + 1, both below 2^31, lambda non-increasing — `char_value`
always returns an integer and never reads rho[0] of an empty vector;
the original claim fails for the mismatched sums lambda=[3], rho=[1]
(see the counterexample theorem), where the recursion reaches an empty
rho with sum(lambda) still at least 2. -/
theorem c3_amended_total_when_sums_compatible
    (lambda rho : List Nat) (c : Cache)
    (hl : lambda.Sorted (fun a b => b ≤ a))
    (hle : lambda.sum ≤ rho.sum + 1)
    (hbl : lambda.sum < 2 ^ 31) (hbr : rho.sum < 2 ^ 31) :
    ∃ v c', char_value lambda rho c = some (v, c') := by
  apply char_valueAux_total
  · have := length_correct_le rho
    omega
  · exact nonIncW_correct (nonIncW_of_sorted hl)
  · rw [sum_correct, sum_correct]
    exact hle
  · rw [sum_correct]
    exact hbl
  · rw [sum_correct]
    exact hbr

/-- C3 (amended), witness: lambda = [1,1], rho = [3] have mismatched sums
(2 versus 3) yet `char_value` returns an integer. -/
theorem c3_amended_total_when_sums_compatible_witness :
    ∃ v c', char_value [1, 1] [3] [] = some (v, c') :=
  c3_amended_total_when_sums_compatible [1, 1] [3] []
    (by decide) (by decide) (by decide) (by decide)

/-! ### The sweep on all-ones partitions (for the sign character) -/

lemma wget_replicate_lt {n i : Nat} (x : Nat) (h : i < n) : wget (List.replicate n x) i = x := by
  rw [wget_eq_getElem (by simpa using h)]
  simp

lemma wget_append_right (a b : List Nat) (i : Nat) (h : a.length ≤ i) :
    wget (a ++ b) i = wget b (i - a.length) :=
  List.getD_append_right _ _ _ _ h

lemma wset_append_right (a b : List Nat) (i : Nat) (v : Nat) (h : a.length ≤ i) :
    wset (a ++ b) i v = a ++ wset b (i - a.length) v :=
  List.set_append_right i v h

lemma replicate_append_cons (n x : Nat) (t : List Nat) :
    List.replicate n x ++ x :: t = List.replicate (n + 1) x ++ t := by
  rw [List.replicate_succ', List.append_assoc]
  rfl

lemma wget_two_block (i d x y : Nat) :
    wget (List.replicate i x ++ List.replicate (d + 1) y) i = y := by
  rw [wget_append_right _ _ _ (by rw [List.length_replicate])]
  rw [List.length_replicate, Nat.sub_self]
  exact wget_replicate_lt y (Nat.succ_pos d)

lemma wset_two_block (i d x y v : Nat) :
    wset (List.replicate i x ++ List.replicate (d + 1) y) i v
      = List.replicate i x ++ v :: List.replicate d y := by
  rw [wset_append_right _ _ _ v (by rw [List.length_replicate])]
  rw [List.length_replicate, Nat.sub_self, List.replicate_succ]
  rfl

lemma wget_block_pos {i d : Nat} (x y : Nat) (hd : 0 < d) :
    wget (List.replicate i x ++ List.replicate d y) i = y := by
  obtain ⟨d', rfl⟩ : ∃ d', d = d' + 1 := ⟨d - 1, by omega⟩
  exact wget_two_block i d' x y

lemma wset_block_pos {i d : Nat} (x y v : Nat) (hd : 0 < d) :
    wset (List.replicate i x ++ List.replicate d y) i v
      = List.replicate i x ++ v :: List.replicate (d - 1) y := by
  obtain ⟨d', rfl⟩ : ∃ d', d = d' + 1 := ⟨d - 1, by omega⟩
  simpa using wset_two_block i d' x y v

lemma runWhile_ones : ∀ (d : Nat) (res : List PartitionWithoutBorderStrip) (i : Nat)
    (bs : Int) (fnz : Nat),
    runWhile 1 (d + 1) ⟨res, i, List.replicate (i + d) 1,
        List.replicate i 1 ++ List.replicate d 0, bs, fnz⟩
      = ⟨res, i + d, List.replicate (i + d) 1, List.replicate (i + d) 1, bs - d, fnz⟩ := by
  intro d
  induction d with
  | zero =>
    intro res i bs fnz
    rw [runWhile]
    rw [if_neg (by simp)]
    simp
  | succ d ihd =>
    intro res i bs fnz
    rw [runWhile]
    rw [if_pos (by refine ⟨by simp, ?_⟩; show wget (List.replicate (i + (d + 1)) 1) i = 1; exact wget_replicate_lt 1 (by omega))]
    have hsx : wset (List.replicate i 1 ++ List.replicate (d + 1) 0) i
        (szAdd (wget (List.replicate i 1 ++ List.replicate (d + 1) 0) i) 1)
        = List.replicate (i + 1) 1 ++ List.replicate d 0 := by
      rw [wget_two_block i d 1 0]
      rw [show szAdd 0 1 = 1 from by norm_num [szAdd, szW]]
      rw [wset_two_block, replicate_append_cons]
    show runWhile 1 (d + 1) ⟨res, i + 1, List.replicate (i + (d + 1)) 1, wset (List.replicate i 1 ++ List.replicate (d + 1) 0) i (szAdd (wget (List.replicate i 1 ++ List.replicate (d + 1) 0) i) 1), bs - 1, fnz⟩ = ⟨res, i + (d + 1), List.replicate (i + (d + 1)) 1, List.replicate (i + (d + 1)) 1, bs - ((d : Int) + 1), fnz⟩
    rw [hsx]
    rw [show i + (d + 1) = (i + 1) + d from by omega]
    rw [ihd res (i + 1) (bs - 1) fnz]
    congr 1
    push_cast
    ring

lemma decRange_ones : ∀ (d i : Nat),
    decRange (List.replicate i 0 ++ List.replicate d 1) i d = List.replicate (i + d) 0 := by
  intro d
  induction d with
  | zero =>
    intro i
    rw [decRange]
    simp
  | succ d ihd =>
    intro i
    rw [decRange]
    have hs : wset (List.replicate i 0 ++ List.replicate (d + 1) 1) i
        (szSub (wget (List.replicate i 0 ++ List.replicate (d + 1) 1) i) 1)
        = List.replicate (i + 1) 0 ++ List.replicate d 1 := by
      rw [wget_two_block i d 0 1]
      rw [show szSub 1 1 = 0 from by norm_num [szSub, szI, szW]]
      rw [wset_two_block, replicate_append_cons]
    rw [hs, ihd (i + 1)]
    congr 1
    omega

lemma refundWhile_ones : ∀ (t fuel : Nat), t ≤ fuel → ∀ (a m : Nat)
    (res : List PartitionWithoutBorderStrip) (row : Nat),
    refundWhile fuel ⟨res, row, List.replicate a 1 ++ List.replicate (m + t) 0,
        List.replicate a 0 ++ List.replicate (m + t) 1, -(t : Int), a⟩
      = ⟨res, row, List.replicate (a + t) 1 ++ List.replicate m 0,
          List.replicate (a + t) 0 ++ List.replicate m 1, 0, a + t⟩ := by
  intro t
  induction t with
  | zero =>
    intro fuel _ a m res row
    cases fuel with
    | zero =>
      rw [refundWhile]
      simp
    | succ fu =>
      rw [refundWhile]
      rw [if_neg (by simp)]
      simp
  | succ t iht =>
    intro fuel hle a m res row
    cases fuel with
    | zero => exact absurd hle (by omega)
    | succ fu =>
      rw [refundWhile]
      rw [if_pos (by show -(((t : Nat) + 1 : Nat) : Int) < 0; push_cast; omega)]
      have hwl : wget (List.replicate a 1 ++ List.replicate (m + (t + 1)) 0) a = 0 := by
        rw [show m + (t + 1) = (m + t) + 1 from by omega]
        exact wget_two_block a (m + t) 1 0
      have hwx : wget (List.replicate a 0 ++ List.replicate (m + (t + 1)) 1) a = 1 := by
        rw [show m + (t + 1) = (m + t) + 1 from by omega]
        exact wget_two_block a (m + t) 0 1
      have hsl : wset (List.replicate a 1 ++ List.replicate (m + (t + 1)) 0) a
          (szAdd (wget (List.replicate a 1 ++ List.replicate (m + (t + 1)) 0) a)
            (wget (List.replicate a 0 ++ List.replicate (m + (t + 1)) 1) a))
          = List.replicate (a + 1) 1 ++ List.replicate (m + t) 0 := by
        rw [hwl, hwx]
        rw [show szAdd 0 1 = 1 from by norm_num [szAdd, szW]]
        rw [show m + (t + 1) = (m + t) + 1 from by omega]
        rw [wset_two_block, replicate_append_cons]
      have hsx : wset (List.replicate a 0 ++ List.replicate (m + (t + 1)) 1) a 0
          = List.replicate (a + 1) 0 ++ List.replicate (m + t) 1 := by
        rw [show m + (t + 1) = (m + t) + 1 from by omega]
        rw [wset_two_block, replicate_append_cons]
      have hbs : -(((t : Nat) + 1 : Nat) : Int)
          + i32ofSz (wget (List.replicate a 0 ++ List.replicate (m + (t + 1)) 1) a)
          = -(t : Int) := by
        rw [hwx]
        rw [show i32ofSz 1 = 1 from by norm_num [i32ofSz]]
        push_cast
        ring
      show refundWhile fu ⟨res, row, wset (List.replicate a 1 ++ List.replicate (m + (t + 1)) 0) a (szAdd (wget (List.replicate a 1 ++ List.replicate (m + (t + 1)) 0) a) (wget (List.replicate a 0 ++ List.replicate (m + (t + 1)) 1) a)), wset (List.replicate a 0 ++ List.replicate (m + (t + 1)) 1) a 0, -(((t : Nat) + 1 : Nat) : Int) + i32ofSz (wget (List.replicate a 0 ++ List.replicate (m + (t + 1)) 1) a), a + 1⟩ = ⟨res, row, List.replicate (a + (t + 1)) 1 ++ List.replicate m 0, List.replicate (a + (t + 1)) 0 ++ List.replicate m 1, 0, a + (t + 1)⟩
      rw [hsl, hsx, hbs]
      rw [iht fu (by omega) (a + 1) m res row]
      rw [show (a + 1) + t = a + (t + 1) from by omega]

lemma bsLoop_stop (fuel : Nat) (s : BSState) (h : ¬(0 < s.bs ∧ s.row < s.lam.length)) :
    bsLoop fuel s = s.result := by
  rw [bsLoop.eq_def, if_neg h]

lemma bsLoop_step (fuel : Nat) (s s' : BSState) (h : 0 < s.bs ∧ s.row < s.lam.length)
    (hb : bsBranch s = Sum.inl s') : bsLoop (fuel + 1) s = bsLoop fuel (emitCheck s') := by
  rw [bsLoop.eq_def, if_pos h]
  show (match bsBranch s with
    | Sum.inr res => res
    | Sum.inl s2 => bsLoop fuel (emitCheck s2)) = bsLoop fuel (emitCheck s')
  rw [hb]

lemma bsLoop_ret (fuel : Nat) (s : BSState) (res : List PartitionWithoutBorderStrip)
    (h : 0 < s.bs ∧ s.row < s.lam.length) (hb : bsBranch s = Sum.inr res) :
    bsLoop (fuel + 1) s = res := by
  rw [bsLoop.eq_def, if_pos h]
  show (match bsBranch s with
    | Sum.inr r => r
    | Sum.inl s2 => bsLoop fuel (emitCheck s2)) = res
  rw [hb]

lemma bsBranch_down_eq (s : BSState) (h1 : ¬ s.row + 1 = s.lam.length)
    (h2 : ¬ wget s.lam (s.row + 1) < wget s.lam s.row) :
    bsBranch s = Sum.inl (refundWhile ((runWhile (wget s.lam s.row) (s.lam.length + 1 - s.row) s).xi.length + 1) { runWhile (wget s.lam s.row) (s.lam.length + 1 - s.row) s with lam := decRange (runWhile (wget s.lam s.row) (s.lam.length + 1 - s.row) s).lam s.row ((runWhile (wget s.lam s.row) (s.lam.length + 1 - s.row) s).row - s.row), row := (runWhile (wget s.lam s.row) (s.lam.length + 1 - s.row) s).row - 1 }) := by
  unfold bsBranch
  rw [if_neg h1, if_neg h2]

lemma bsBranch_last_eq (s : BSState) (h1 : s.row + 1 = s.lam.length)
    (h2 : 0 < s.bs - min s.bs (i32ofSz (wget s.lam s.row))) :
    bsBranch s = Sum.inr s.result := by
  have hbr : bsBranch s = (if 0 < s.bs - min s.bs (i32ofSz (wget s.lam s.row)) then Sum.inr s.result else Sum.inl { s with bs := s.bs - min s.bs (i32ofSz (wget s.lam s.row)), lam := wset s.lam s.row (szSub (wget s.lam s.row) (szI (min s.bs (i32ofSz (wget s.lam s.row))))), xi := wset s.xi s.row (szAddI (wget s.xi s.row) (min s.bs (i32ofSz (wget s.lam s.row)))) }) := by
    unfold bsBranch
    rw [if_pos h1]
  rw [hbr, if_pos h2]

lemma emitCheck_zero_eq (s : BSState) (h : s.bs = 0) (heq : s.row = s.fnz) :
    emitCheck s = { s with result := s.result ++ [⟨s.lam, s.xi⟩], lam := wset s.lam s.fnz (szAdd (wget s.lam s.fnz) (wget s.xi s.fnz)), bs := s.bs + i32ofSz (wget s.xi s.fnz), xi := wset s.xi s.fnz 0, row := s.row + 1, fnz := s.fnz + 1 } := by
  simp only [emitCheck]
  rw [if_pos h, if_pos heq]

lemma emitCheck_zero_ne (s : BSState) (h : s.bs = 0) (hne : ¬ s.row = s.fnz) :
    emitCheck s = { s with result := s.result ++ [⟨s.lam, s.xi⟩], lam := wset s.lam s.fnz (szAdd (wget s.lam s.fnz) (wget s.xi s.fnz)), bs := s.bs + i32ofSz (wget s.xi s.fnz), xi := wset s.xi s.fnz 0 } := by
  simp only [emitCheck]
  rw [if_pos h, if_neg hne]

lemma sum_replicate_one (n : Nat) : (List.replicate n 1).sum = n := by
  simp [List.sum_replicate]

set_option maxHeartbeats 1600000 in
lemma strips_ones {k m : Nat} (hk : 2 ≤ k) (hm1 : 1 ≤ m) (hmk : m ≤ k) :
    get_border_strips (List.replicate k 1) ((m : Nat) : Int)
      = [⟨List.replicate (k - m) 1 ++ List.replicate m 0,
          List.replicate (k - m) 0 ++ List.replicate m 1⟩] := by
  have hfuel : bsFuel (List.replicate k 1) ((m : Nat) : Int) = (k + k + m + 1) + 1 := by
    unfold bsFuel
    rw [sum_replicate_one, List.length_replicate, Int.toNat_natCast]
  rw [get_border_strips, hfuel, List.length_replicate]
  have hrun : runWhile 1 (k + 1) ⟨[], 0, List.replicate k 1, List.replicate k 0, (m : Int), 0⟩
      = ⟨[], k, List.replicate k 1, List.replicate k 1, (m : Int) - k, 0⟩ := by
    have h := runWhile_ones k [] 0 ((m : Nat) : Int) 0
    simp only [Nat.zero_add, List.replicate_zero, List.nil_append] at h
    exact h
  have hdec : decRange (List.replicate k 1) 0 k = List.replicate k 0 := by
    have h := decRange_ones k 0
    simp only [Nat.zero_add, List.replicate_zero, List.nil_append] at h
    exact h
  have hrefund : refundWhile (k + 1) ⟨[], k - 1, List.replicate k 0, List.replicate k 1, (m : Int) - k, 0⟩
      = ⟨[], k - 1, List.replicate (k - m) 1 ++ List.replicate m 0,
          List.replicate (k - m) 0 ++ List.replicate m 1, 0, k - m⟩ := by
    have h := refundWhile_ones (k - m) (k + 1) (by omega) 0 m [] (k - 1)
    rw [show m + (k - m) = k from by omega] at h
    simp only [Nat.zero_add, List.replicate_zero, List.nil_append] at h
    rw [show (m : Int) - k = -(((k - m : Nat)) : Int) from by omega]
    exact h
  have hb1 : bsBranch ⟨[], 0, List.replicate k 1, List.replicate k 0, (m : Int), 0⟩
      = Sum.inl ⟨[], k - 1, List.replicate (k - m) 1 ++ List.replicate m 0,
          List.replicate (k - m) 0 ++ List.replicate m 1, 0, k - m⟩ := by
    have h1 : ¬ ((0 : Nat) + 1 = (List.replicate k 1).length) := by
      rw [List.length_replicate]
      omega
    have h2 : ¬ wget (List.replicate k 1) (0 + 1) < wget (List.replicate k 1) 0 := by
      rw [wget_replicate_lt 1 (by omega), wget_replicate_lt 1 (by omega)]
      omega
    rw [bsBranch_down_eq _ h1 h2]
    show Sum.inl (refundWhile ((runWhile (wget (List.replicate k 1) 0) ((List.replicate k 1).length + 1 - 0) ⟨[], 0, List.replicate k 1, List.replicate k 0, (m : Int), 0⟩).xi.length + 1) { runWhile (wget (List.replicate k 1) 0) ((List.replicate k 1).length + 1 - 0) ⟨[], 0, List.replicate k 1, List.replicate k 0, (m : Int), 0⟩ with lam := decRange (runWhile (wget (List.replicate k 1) 0) ((List.replicate k 1).length + 1 - 0) ⟨[], 0, List.replicate k 1, List.replicate k 0, (m : Int), 0⟩).lam 0 ((runWhile (wget (List.replicate k 1) 0) ((List.replicate k 1).length + 1 - 0) ⟨[], 0, List.replicate k 1, List.replicate k 0, (m : Int), 0⟩).row - 0), row := (runWhile (wget (List.replicate k 1) 0) ((List.replicate k 1).length + 1 - 0) ⟨[], 0, List.replicate k 1, List.replicate k 0, (m : Int), 0⟩).row - 1 }) = Sum.inl ⟨[], k - 1, List.replicate (k - m) 1 ++ List.replicate m 0, List.replicate (k - m) 0 ++ List.replicate m 1, 0, k - m⟩
    rw [wget_replicate_lt 1 (by omega), List.length_replicate, Nat.sub_zero, hrun]
    show Sum.inl (refundWhile ((List.replicate k 1).length + 1) ⟨[], k - 1, decRange (List.replicate k 1) 0 (k - 0), List.replicate k 1, (m : Int) - k, 0⟩) = Sum.inl ⟨[], k - 1, List.replicate (k - m) 1 ++ List.replicate m 0, List.replicate (k - m) 0 ++ List.replicate m 1, 0, k - m⟩
    rw [List.length_replicate, Nat.sub_zero, hdec, hrefund]
  have hc1 : 0 < (⟨[], 0, List.replicate k 1, List.replicate k 0, (m : Int), 0⟩ : BSState).bs
      ∧ (⟨[], 0, List.replicate k 1, List.replicate k 0, (m : Int), 0⟩ : BSState).row
        < (⟨[], 0, List.replicate k 1, List.replicate k 0, (m : Int), 0⟩ : BSState).lam.length := by
    constructor
    · show (0 : Int) < (m : Int)
      omega
    · show 0 < (List.replicate k 1).length
      rw [List.length_replicate]
      omega
  rw [bsLoop_step (k + k + m + 1) _ _ hc1 hb1]
  by_cases hm2 : m = 1
  · subst hm2
    rw [emitCheck_zero_eq _ rfl rfl]
    have hlen : (wset (List.replicate (k - 1) 1 ++ List.replicate 1 0) (k - 1) (szAdd (wget (List.replicate (k - 1) 1 ++ List.replicate 1 0) (k - 1)) (wget (List.replicate (k - 1) 0 ++ List.replicate 1 1) (k - 1)))).length = k := by
      rw [length_wset, List.length_append, List.length_replicate, List.length_replicate]
      omega
    have hstop : ¬(0 < (0 : Int) + i32ofSz (wget (List.replicate (k - 1) 0 ++ List.replicate 1 1) (k - 1)) ∧ (k - 1) + 1 < (wset (List.replicate (k - 1) 1 ++ List.replicate 1 0) (k - 1) (szAdd (wget (List.replicate (k - 1) 1 ++ List.replicate 1 0) (k - 1)) (wget (List.replicate (k - 1) 0 ++ List.replicate 1 1) (k - 1)))).length) := by
      intro hcon
      have hlt := hcon.2
      rw [hlen] at hlt
      omega
    rw [bsLoop_stop _ _ hstop]
    rfl
  · obtain ⟨m', rfl⟩ : ∃ m', m = m' + 2 := ⟨m - 2, by omega⟩
    rw [emitCheck_zero_ne _ rfl (show ¬ (k - 1 : Nat) = k - (m' + 2) from by omega)]
    have hwl : wget (List.replicate (k - (m' + 2)) 1 ++ List.replicate (m' + 2) 0) (k - (m' + 2)) = 0 :=
      wget_block_pos 1 0 (by omega)
    have hwx : wget (List.replicate (k - (m' + 2)) 0 ++ List.replicate (m' + 2) 1) (k - (m' + 2)) = 1 :=
      wget_block_pos 0 1 (by omega)
    have hsl : wset (List.replicate (k - (m' + 2)) 1 ++ List.replicate (m' + 2) 0) (k - (m' + 2)) (szAdd (wget (List.replicate (k - (m' + 2)) 1 ++ List.replicate (m' + 2) 0) (k - (m' + 2))) (wget (List.replicate (k - (m' + 2)) 0 ++ List.replicate (m' + 2) 1) (k - (m' + 2)))) = List.replicate (k - (m' + 2)) 1 ++ 1 :: List.replicate (m' + 1) 0 := by
      rw [hwl, hwx, show szAdd 0 1 = 1 from by norm_num [szAdd, szW]]
      simpa using wset_block_pos (i := k - (m' + 2)) 1 0 1 (show 0 < m' + 2 from by omega)
    have hsx : wset (List.replicate (k - (m' + 2)) 0 ++ List.replicate (m' + 2) 1) (k - (m' + 2)) 0 = List.replicate (k - (m' + 2)) 0 ++ 0 :: List.replicate (m' + 1) 1 := by
      simpa using wset_block_pos (i := k - (m' + 2)) 0 1 0 (show 0 < m' + 2 from by omega)
    have hbs1 : (0 : Int) + i32ofSz (wget (List.replicate (k - (m' + 2)) 0 ++ List.replicate (m' + 2) 1) (k - (m' + 2))) = 1 := by
      rw [hwx, show i32ofSz 1 = 1 from by norm_num [i32ofSz]]
      ring
    show bsLoop (k + k + (m' + 2) + 1) ⟨[] ++ [⟨List.replicate (k - (m' + 2)) 1 ++ List.replicate (m' + 2) 0, List.replicate (k - (m' + 2)) 0 ++ List.replicate (m' + 2) 1⟩], k - 1, wset (List.replicate (k - (m' + 2)) 1 ++ List.replicate (m' + 2) 0) (k - (m' + 2)) (szAdd (wget (List.replicate (k - (m' + 2)) 1 ++ List.replicate (m' + 2) 0) (k - (m' + 2))) (wget (List.replicate (k - (m' + 2)) 0 ++ List.replicate (m' + 2) 1) (k - (m' + 2)))), wset (List.replicate (k - (m' + 2)) 0 ++ List.replicate (m' + 2) 1) (k - (m' + 2)) 0, (0 : Int) + i32ofSz (wget (List.replicate (k - (m' + 2)) 0 ++ List.replicate (m' + 2) 1) (k - (m' + 2))), k - (m' + 2)⟩ = [⟨List.replicate (k - (m' + 2)) 1 ++ List.replicate (m' + 2) 0, List.replicate (k - (m' + 2)) 0 ++ List.replicate (m' + 2) 1⟩]
    rw [hsl, hsx, hbs1, List.nil_append]
    have hlen2 : (List.replicate (k - (m' + 2)) 1 ++ 1 :: List.replicate (m' + 1) 0).length = k := by
      rw [List.length_append, List.length_replicate, List.length_cons, List.length_replicate]
      omega
    have hwr : wget (List.replicate (k - (m' + 2)) 1 ++ 1 :: List.replicate (m' + 1) 0) (k - 1) = 0 := by
      rw [wget_append_right _ _ _ (by rw [List.length_replicate]; omega)]
      rw [List.length_replicate, show k - 1 - (k - (m' + 2)) = m' + 1 from by omega, wget_cons_succ]
      exact wget_replicate_zero _ _
    have h1b : (k - 1) + 1 = (List.replicate (k - (m' + 2)) 1 ++ 1 :: List.replicate (m' + 1) 0).length := by
      rw [hlen2]
      omega
    have h2b : (0 : Int) < 1 - min 1 (i32ofSz (wget (List.replicate (k - (m' + 2)) 1 ++ 1 :: List.replicate (m' + 1) 0) (k - 1))) := by
      rw [hwr, show i32ofSz 0 = 0 from by norm_num [i32ofSz]]
      norm_num
    have hb2 : bsBranch ⟨[⟨List.replicate (k - (m' + 2)) 1 ++ List.replicate (m' + 2) 0, List.replicate (k - (m' + 2)) 0 ++ List.replicate (m' + 2) 1⟩], k - 1, List.replicate (k - (m' + 2)) 1 ++ 1 :: List.replicate (m' + 1) 0, List.replicate (k - (m' + 2)) 0 ++ 0 :: List.replicate (m' + 1) 1, 1, k - (m' + 2)⟩ = Sum.inr [⟨List.replicate (k - (m' + 2)) 1 ++ List.replicate (m' + 2) 0, List.replicate (k - (m' + 2)) 0 ++ List.replicate (m' + 2) 1⟩] := by
      rw [bsBranch_last_eq _ h1b h2b]
    exact bsLoop_ret (k + k + (m' + 2)) _ _ ⟨by norm_num, by show k - 1 < (List.replicate (k - (m' + 2)) 1 ++ 1 :: List.replicate (m' + 1) 0).length; rw [hlen2]; omega⟩ hb2

/-! ### The sign character -/

lemma correct_replicate_one (n : Nat) : correct_partition (List.replicate n 1) = List.replicate n 1 :=
  correct_of_posParts (fun x hx => by rw [List.eq_of_mem_replicate hx]; norm_num)

lemma correct_replicate_zero (n : Nat) : correct_partition (List.replicate n 0) = [] := by
  induction n with
  | zero => rfl
  | succ n ih =>
    rw [List.replicate_succ]
    simpa [correct_partition] using ih

lemma correct_append (a b : List Nat) :
    correct_partition (a ++ b) = correct_partition a ++ correct_partition b :=
  List.filter_append _ _

lemma innerEmptyAll_nil : InnerEmptyAll [] := fun e he => absurd he (List.not_mem_nil e)

lemma innerEmptyAll_touch {c : Cache} (h : InnerEmptyAll c) (l : List Nat) :
    InnerEmptyAll (cacheTouch c l) := by
  unfold cacheTouch
  by_cases hh : cacheHasOuter c l = true
  · rw [if_pos hh]
    exact h
  · rw [if_neg hh]
    intro e he
    rcases List.mem_append.mp he with h1 | h1
    · exact h e h1
    · rw [List.mem_singleton.mp h1]

lemma cacheFind_innerEmptyAll {c : Cache} (h : InnerEmptyAll c) (l r : List Nat) :
    cacheFind c l r = none := by
  unfold cacheFind cacheInner
  cases hf : c.find? (fun e => e.1 = l) with
  | none => rfl
  | some e =>
    have hm : e ∈ c := List.mem_of_find?_eq_some hf
    show innerFind e.2 r = none
    rw [h e hm]
    rfl

lemma minusOnePow_eq (t : Nat) : MinusOnePow t = (-1 : Int) ^ t := by
  unfold MinusOnePow
  rcases Nat.even_or_odd t with he | ho
  · rw [if_pos (Nat.even_iff.mp he), he.neg_one_pow]
  · rw [if_neg (by have := Nat.odd_iff.mp ho; omega), ho.neg_one_pow]

lemma signProd_cons (r0 : Nat) (rtl : List Nat) :
    signProd (r0 :: rtl) = (-1 : Int) ^ (r0 - 1) * signProd rtl := by
  simp [signProd]

lemma signProd_of_sum_le_one {rho : List Nat} (hpos : PosParts rho) (h : rho.sum ≤ 1) :
    signProd rho = 1 := by
  cases rho with
  | nil => rfl
  | cons a t =>
    have ha : 0 < a := hpos a (List.mem_cons_self a t)
    rw [List.sum_cons] at h
    have ht : t = [] := by
      cases t with
      | nil => rfl
      | cons b u =>
        have hb : 0 < b := hpos b (List.mem_cons_of_mem a (List.mem_cons_self b u))
        rw [List.sum_cons] at h
        omega
    subst ht
    have ha1 : a = 1 := by simpa using h.antisymm (by omega)
    subst ha1
    norm_num [signProd]

lemma char_ones : ∀ (fuel : Nat) (rho : List Nat) (c : Cache),
    rho.length < fuel → PosParts rho → rho.sum < 2 ^ 31 → InnerEmptyAll c →
    ∃ c', char_valueAux fuel (List.replicate rho.sum 1) rho c = some (signProd rho, c') := by
  intro fuel
  induction fuel with
  | zero => intro rho c hlen; omega
  | succ fuel ih =>
    intro rho c hlen hpos hbound hempty
    by_cases hlow : rho.sum < 2
    · refine ⟨c, ?_⟩
      rw [char_valueAux_succ]
      rw [if_pos (by rw [correct_replicate_one, SumSz_of_lt (by rw [sum_replicate_one]; have := two31_lt_szW; omega), sum_replicate_one]; exact hlow)]
      rw [signProd_of_sum_le_one hpos (by omega)]
    · cases rho with
      | nil => exact absurd (by decide) hlow
      | cons r0 rtl =>
        have hr0 : 0 < r0 := hpos r0 (List.mem_cons_self r0 rtl)
        have hsum : (r0 :: rtl).sum = r0 + rtl.sum := List.sum_cons
        have hposrtl : PosParts rtl := fun x hx => hpos x (List.mem_cons_of_mem r0 hx)
        have hcr : correct_partition (r0 :: rtl) = r0 :: rtl := correct_of_posParts hpos
        have hfind : cacheFind (cacheTouch c (List.replicate (r0 :: rtl).sum 1))
            (List.replicate (r0 :: rtl).sum 1) (r0 :: rtl) = none :=
          cacheFind_innerEmptyAll (innerEmptyAll_touch hempty _) _ _
        have hi32 : i32ofSz r0 = (r0 : Int) := i32ofSz_eq (by omega)
        have hstr : get_border_strips (List.replicate (r0 :: rtl).sum 1) (i32ofSz r0)
            = [⟨List.replicate ((r0 :: rtl).sum - r0) 1 ++ List.replicate r0 0,
                List.replicate ((r0 :: rtl).sum - r0) 0 ++ List.replicate r0 1⟩] := by
          rw [hi32]
          exact strips_ones (by omega) (by omega) (by omega)
        obtain ⟨cc, hcc⟩ := ih rtl (cacheTouch c (List.replicate (r0 :: rtl).sum 1))
          (by simp only [List.length_cons] at hlen; omega) hposrtl (by omega)
          (innerEmptyAll_touch hempty _)
        have hcp : correct_partition (List.replicate ((r0 :: rtl).sum - r0) 1 ++ List.replicate r0 0)
            = List.replicate rtl.sum 1 := by
          rw [correct_append, correct_replicate_one, correct_replicate_zero, List.append_nil]
          congr 1
          omega
        have hcb : correct_partition (List.replicate ((r0 :: rtl).sum - r0) 0 ++ List.replicate r0 1)
            = List.replicate r0 1 := by
          rw [correct_append, correct_replicate_zero, correct_replicate_one, List.nil_append]
        have hacc : (0 : Int) + MinusOnePow (szSub (correct_partition
              (List.replicate ((r0 :: rtl).sum - r0) 0 ++ List.replicate r0 1)).length 1)
              * signProd rtl = signProd (r0 :: rtl) := by
          rw [hcb, List.length_replicate]
          rw [szSub_eq (by omega) (by have := two31_lt_szW; omega)]
          rw [minusOnePow_eq, zero_add, ← signProd_cons]
        have hfold : charFoldF (fun part cc2 => char_valueAux fuel part rtl cc2)
            [⟨List.replicate ((r0 :: rtl).sum - r0) 1 ++ List.replicate r0 0,
              List.replicate ((r0 :: rtl).sum - r0) 0 ++ List.replicate r0 1⟩] 0
            (cacheTouch c (List.replicate (r0 :: rtl).sum 1))
            = some (signProd (r0 :: rtl), cc) := by
          rw [charFoldF]
          show (match char_valueAux fuel (correct_partition (List.replicate ((r0 :: rtl).sum - r0) 1 ++ List.replicate r0 0)) rtl (cacheTouch c (List.replicate (r0 :: rtl).sum 1)) with
            | none => none
            | some (v, cc2) => charFoldF (fun part cc2 => char_valueAux fuel part rtl cc2) [] (0 + MinusOnePow (szSub (correct_partition (List.replicate ((r0 :: rtl).sum - r0) 0 ++ List.replicate r0 1)).length 1) * v) cc2)
            = some (signProd (r0 :: rtl), cc)
          rw [hcp, hcc]
          show some (0 + MinusOnePow (szSub (correct_partition (List.replicate ((r0 :: rtl).sum - r0) 0 ++ List.replicate r0 1)).length 1) * signProd rtl, cc) = some (signProd (r0 :: rtl), cc)
          rw [hacc]
        refine ⟨cacheStore cc (List.replicate (r0 :: rtl).sum 1) (r0 :: rtl)
          (signProd (r0 :: rtl)), ?_⟩
        rw [char_valueAux_succ, correct_replicate_one, hcr]
        rw [if_neg (by rw [SumSz_of_lt (by rw [sum_replicate_one]; have := two31_lt_szW; omega), sum_replicate_one]; omega)]
        rw [hfind]
        show (match charFoldF (fun part cc2 => char_valueAux fuel part rtl cc2)
            (get_border_strips (List.replicate (r0 :: rtl).sum 1) (i32ofSz r0)) 0
            (cacheTouch c (List.replicate (r0 :: rtl).sum 1)) with
          | none => none
          | some (res, c2) => some (res, cacheStore c2 (List.replicate (r0 :: rtl).sum 1)
              (r0 :: rtl) res))
          = some (signProd (r0 :: rtl), cacheStore cc (List.replicate (r0 :: rtl).sum 1)
              (r0 :: rtl) (signProd (r0 :: rtl)))
        rw [hstr, hfold]

lemma char_valueAux_strips_case (fuel : Nat) (lambda rho : List Nat) (c : Cache)
    (r0 : Nat) (rtl : List Nat) (res : Int) (c2 : Cache)
    (h2 : ¬ SumSz (correct_partition lambda) < 2)
    (hfind : cacheFind (cacheTouch c (correct_partition lambda)) (correct_partition lambda)
      (correct_partition rho) = none)
    (hr : correct_partition rho = r0 :: rtl)
    (hfold : charFoldF (fun part cc => char_valueAux fuel part rtl cc)
        (get_border_strips (correct_partition lambda) (i32ofSz r0)) 0
        (cacheTouch c (correct_partition lambda)) = some (res, c2)) :
    char_valueAux (fuel + 1) lambda rho c
      = some (res, cacheStore c2 (correct_partition lambda) (correct_partition rho) res) := by
  rw [char_valueAux_succ, if_neg h2, hfind, hr]
  show (match charFoldF (fun part cc => char_valueAux fuel part rtl cc)
      (get_border_strips (correct_partition lambda) (i32ofSz r0)) 0
      (cacheTouch c (correct_partition lambda)) with
    | none => none
    | some (r, cc2) => some (r, cacheStore cc2 (correct_partition lambda) (r0 :: rtl) r))
    = some (res, cacheStore c2 (correct_partition lambda) (r0 :: rtl) res)
  rw [hfold]

/-- C6 (refuted as stated): the claim quantifies over every n >= 1, but at
n = 2^32 the cast `static_cast<int>(rho[0])` truncates 2^32 to 0, the strip
enumeration is asked for strips of length 0 and returns nothing, so
`char_value` on the all-ones partition of 2^32 returns 0 while the sign of
a cycle of length 2^32 is -1. -/
theorem c6_counterexample_sign_truncation :
    (∃ c', char_value (List.replicate (2 ^ 32) 1) [2 ^ 32] [] = some (0, c')) ∧
      signProd [2 ^ 32] = -1 := by
  constructor
  · have hcl := correct_replicate_one (2 ^ 32)
    have hcr : correct_partition [2 ^ 32] = [2 ^ 32] :=
      correct_of_posParts (by intro x hx; rw [List.mem_singleton.mp hx]; norm_num)
    have hfind : cacheFind (cacheTouch [] (List.replicate (2 ^ 32) 1))
        (List.replicate (2 ^ 32) 1) [2 ^ 32] = none :=
      cacheFind_innerEmptyAll (innerEmptyAll_touch innerEmptyAll_nil _) _ _
    have hi0 : i32ofSz (2 ^ 32) = 0 := by norm_num [i32ofSz]
    have hstr0 : get_border_strips (List.replicate (2 ^ 32) 1) (i32ofSz (2 ^ 32)) = [] := by
      rw [hi0, get_border_strips]
      exact bsLoop_stop _ _ (by rintro ⟨h1, -⟩; simp at h1)
    have happ := char_valueAux_strips_case ([(2 : Nat) ^ 32].length)
      (List.replicate (2 ^ 32) 1) [2 ^ 32] [] (2 ^ 32) [] 0
      (cacheTouch [] (List.replicate (2 ^ 32) 1))
      (by rw [hcl, SumSz_of_lt (by rw [sum_replicate_one]; norm_num [szW]), sum_replicate_one]; norm_num)
      (by rw [hcl, hcr]; exact hfind)
      (by rw [hcr])
      (by rw [hcl, hstr0, charFoldF])
    rw [hcl, hcr] at happ
    exact ⟨cacheStore (cacheTouch [] (List.replicate (2 ^ 32) 1))
      (List.replicate (2 ^ 32) 1) [2 ^ 32] 0, happ⟩
  · rw [signProd]
    rw [show ([2 ^ 32] : List Nat).map (fun r => (-1 : Int) ^ (r - 1)) = [(-1 : Int) ^ ((2 : Nat) ^ 32 - 1)] from rfl]
    rw [List.prod_singleton]
    exact Odd.neg_one_pow ⟨2 ^ 31 - 1, by norm_num⟩

/-- C6 (amended): for every partition rho with positive parts and total
below 2^31, starting from a cache whose inner maps are all empty,
`char_value` on the all-ones partition of sum(rho) returns the sign of a
permutation of cycle type rho, the product of (-1)^(rho_i - 1); the
original unrestricted claim fails at n = 2^32 by int truncation. -/
theorem c6_amended_sign_character (rho : List Nat) (c : Cache)
    (hpos : ∀ x ∈ rho, 0 < x) (hbound : rho.sum < 2 ^ 31) (hc : InnerEmptyAll c) :
    ∃ c', char_value (List.replicate rho.sum 1) rho c = some (signProd rho, c') :=
  char_ones (rho.length + 1) rho c (by omega) hpos hbound hc

/-- C6 (amended), witness: rho = [2,1]; the character value is
(-1)^1 * (-1)^0 = -1 on the all-ones partition [1,1,1]. -/
theorem c6_amended_sign_character_witness :
    ∃ c', char_value (List.replicate ([2, 1] : List Nat).sum 1) [2, 1] []
      = some (signProd [2, 1], c') :=
  c6_amended_sign_character [2, 1] [] (by decide) (by decide)
    (fun e he => absurd he (List.not_mem_nil e))

/-! ### Cache monotonicity, replay and stability (for idempotence) -/

lemma any_fst_map_upd : ∀ (c : Cache) (l l' : List Nat) (g : List Nat × InnerCache → InnerCache),
    (c.map (fun e => if e.1 = l then (e.1, g e) else e)).any (fun e => e.1 = l')
      = c.any (fun e => e.1 = l') := by
  intro c l l' g
  induction c with
  | nil => rfl
  | cons e t ih =>
    simp only [List.map_cons, List.any_cons, ih]
    by_cases he : e.1 = l
    · rw [if_pos he]
    · rw [if_neg he]

lemma cacheHasOuter_store (c : Cache) (l r : List Nat) (v : Int) (l' : List Nat) :
    cacheHasOuter (cacheStore c l r v) l' = cacheHasOuter (cacheTouch c l) l' := by
  unfold cacheStore cacheHasOuter
  exact any_fst_map_upd (cacheTouch c l) l l'
    (fun e => innerInsert e.2 r v)

lemma cacheHasOuter_touch_mono (c : Cache) (l l' : List Nat)
    (h : cacheHasOuter c l' = true) : cacheHasOuter (cacheTouch c l) l' = true := by
  unfold cacheTouch
  by_cases hh : cacheHasOuter c l = true
  · rw [if_pos hh]
    exact h
  · rw [if_neg hh]
    unfold cacheHasOuter at h ⊢
    rw [List.any_append, h]
    rfl

lemma hasOuter_of_touch_eq {c : Cache} {l : List Nat} (h : cacheTouch c l = c) :
    cacheHasOuter c l = true := by
  by_cases hh : cacheHasOuter c l = true
  · exact hh
  · exfalso
    unfold cacheTouch at h
    rw [if_neg hh] at h
    have hlen := congrArg List.length h
    rw [List.length_append] at hlen
    simp at hlen

lemma charFoldF_mono_aux (f : List Nat → Cache → Option (Int × Cache)) (L : Nat)
    (hf : ∀ part cc w cc', f part cc = some (w, cc') →
      CachePreserve cc cc'
        ∧ (∀ l' r' : List Nat, L < r'.length → cacheFind cc' l' r' = cacheFind cc l' r')
        ∧ (∀ l' : List Nat, cacheHasOuter cc l' = true → cacheHasOuter cc' l' = true)) :
    ∀ (strips : List PartitionWithoutBorderStrip) (acc : Int) (c : Cache) (res : Int) (c2 : Cache),
    charFoldF f strips acc c = some (res, c2) →
    CachePreserve c c2
      ∧ (∀ l' r' : List Nat, L < r'.length → cacheFind c2 l' r' = cacheFind c l' r')
      ∧ (∀ l' : List Nat, cacheHasOuter c l' = true → cacheHasOuter c2 l' = true) := by
  intro strips
  induction strips with
  | nil =>
    intro acc c res c2 h
    replace h : some (acc, c) = some (res, c2) := h
    injection h with h
    rw [Prod.mk.injEq] at h
    obtain ⟨-, rfl⟩ := h
    exact ⟨cachePreserve_refl c, fun _ _ _ => rfl, fun _ hh => hh⟩
  | cons p rest ih =>
    intro acc c res c2 h
    rw [charFoldF] at h
    cases hp : f (correct_partition p.partition) c with
    | none =>
      rw [hp] at h
      replace h : (none : Option (Int × Cache)) = some (res, c2) := h
      simp at h
    | some vc =>
      obtain ⟨w, cc⟩ := vc
      rw [hp] at h
      obtain ⟨h1, h2, h3⟩ := hf _ _ _ _ hp
      obtain ⟨g1, g2, g3⟩ := ih _ _ _ _ h
      refine ⟨cachePreserve_trans h1 g1, ?_, fun l' hh => g3 l' (h3 l' hh)⟩
      intro l' r' hr
      rw [g2 l' r' hr, h2 l' r' hr]

lemma char_valueAux_mono : ∀ (fuel : Nat) (lambda rho : List Nat) (c : Cache) (v : Int) (c' : Cache),
    char_valueAux fuel lambda rho c = some (v, c') →
    CachePreserve c c'
      ∧ (∀ l' r' : List Nat, (correct_partition rho).length < r'.length →
          cacheFind c' l' r' = cacheFind c l' r')
      ∧ (∀ l' : List Nat, cacheHasOuter c l' = true → cacheHasOuter c' l' = true) := by
  intro fuel
  induction fuel with
  | zero =>
    intro lambda rho c v c' h
    replace h : (none : Option (Int × Cache)) = some (v, c') := h
    simp at h
  | succ fuel ih =>
    intro lambda rho c v c' h
    rw [char_valueAux_succ] at h
    by_cases h2 : SumSz (correct_partition lambda) < 2
    · rw [if_pos h2] at h
      replace h : some ((1 : Int), c) = some (v, c') := h
      injection h with h
      rw [Prod.mk.injEq] at h
      obtain ⟨-, rfl⟩ := h
      exact ⟨cachePreserve_refl c, fun _ _ _ => rfl, fun _ hh => hh⟩
    · rw [if_neg h2] at h
      cases hf : cacheFind (cacheTouch c (correct_partition lambda)) (correct_partition lambda)
          (correct_partition rho) with
      | some w =>
        rw [hf] at h
        replace h : some (w, cacheTouch c (correct_partition lambda)) = some (v, c') := h
        injection h with h
        rw [Prod.mk.injEq] at h
        obtain ⟨-, rfl⟩ := h
        exact ⟨cachePreserve_touch c _, fun l' r' _ => cacheFind_touch c _ l' r',
          fun l' hh => cacheHasOuter_touch_mono c _ l' hh⟩
      | none =>
        rw [hf] at h
        cases hr : correct_partition rho with
        | nil =>
          rw [hr] at h
          replace h : (none : Option (Int × Cache)) = some (v, c') := h
          simp at h
        | cons r0 rtl =>
          rw [hr] at h
          have hpos := posParts_correct rho
          rw [hr] at hpos
          have hcrtl : correct_partition rtl = rtl :=
            correct_of_posParts (fun x hx => hpos x (List.mem_cons_of_mem r0 hx))
          replace h : (match charFoldF (fun part cc => char_valueAux fuel part rtl cc)
              (get_border_strips (correct_partition lambda) (i32ofSz r0)) 0
              (cacheTouch c (correct_partition lambda)) with
            | none => none
            | some (res, c2) => some (res, cacheStore c2 (correct_partition lambda)
                (r0 :: rtl) res)) = some (v, c') := h
          cases hfold : charFoldF (fun part cc => char_valueAux fuel part rtl cc)
              (get_border_strips (correct_partition lambda) (i32ofSz r0)) 0
              (cacheTouch c (correct_partition lambda)) with
          | none =>
            rw [hfold] at h
            replace h : (none : Option (Int × Cache)) = some (v, c') := h
            simp at h
          | some rc =>
            obtain ⟨res, c2⟩ := rc
            rw [hfold] at h
            replace h : some (res, cacheStore c2 (correct_partition lambda) (r0 :: rtl) res)
              = some (v, c') := h
            injection h with h
            rw [Prod.mk.injEq] at h
            obtain ⟨-, rfl⟩ := h
            have hfm := charFoldF_mono_aux (fun part cc => char_valueAux fuel part rtl cc)
              rtl.length (by
                intro part cc w cc' hcall
                have hi := ih part rtl cc w cc' hcall
                rw [hcrtl] at hi
                exact hi) _ _ _ _ _ hfold
            obtain ⟨f1, f2, f3⟩ := hfm
            have hstorenone : cacheFind c2 (correct_partition lambda) (r0 :: rtl) = none := by
              rw [f2 _ _ (by rw [List.length_cons]; omega)]
              rw [← hr]
              exact hf
            refine ⟨?_, ?_, ?_⟩
            · exact cachePreserve_trans (cachePreserve_touch c _)
                (cachePreserve_trans f1 (cachePreserve_store res hstorenone))
            · intro l' r' hrlen
              rw [List.length_cons] at hrlen
              rw [cacheFind_store_ne _ _ _ _ _ res
                (by rintro ⟨-, rfl⟩; rw [List.length_cons] at hrlen; omega)]
              rw [f2 l' r' (by omega), cacheFind_touch]
            · intro l' hh
              rw [cacheHasOuter_store]
              exact cacheHasOuter_touch_mono _ _ _
                (f3 l' (cacheHasOuter_touch_mono c _ l' hh))

lemma char_valueAux_replay (fuel fuel' : Nat) (lambda rho : List Nat) (c c' : Cache) (v : Int)
    (h : char_valueAux (fuel + 1) lambda rho c = some (v, c')) :
    char_valueAux (fuel' + 1) lambda rho c' = some (v, c') := by
  rw [char_valueAux_succ] at h
  rw [char_valueAux_succ]
  by_cases h2 : SumSz (correct_partition lambda) < 2
  · rw [if_pos h2] at h
    rw [if_pos h2]
    replace h : some ((1 : Int), c) = some (v, c') := h
    injection h with h
    rw [Prod.mk.injEq] at h
    obtain ⟨rfl, rfl⟩ := h
    rfl
  · rw [if_neg h2] at h
    rw [if_neg h2]
    cases hf : cacheFind (cacheTouch c (correct_partition lambda)) (correct_partition lambda)
        (correct_partition rho) with
    | some w =>
      rw [hf] at h
      replace h : some (w, cacheTouch c (correct_partition lambda)) = some (v, c') := h
      injection h with h
      rw [Prod.mk.injEq] at h
      obtain ⟨rfl, rfl⟩ := h
      rw [cacheTouch_of_has (cacheHasOuter_touch c (correct_partition lambda)), hf]
    | none =>
      rw [hf] at h
      cases hr : correct_partition rho with
      | nil =>
        rw [hr] at h
        replace h : (none : Option (Int × Cache)) = some (v, c') := h
        simp at h
      | cons r0 rtl =>
        rw [hr] at h
        replace h : (match charFoldF (fun part cc => char_valueAux fuel part rtl cc)
            (get_border_strips (correct_partition lambda) (i32ofSz r0)) 0
            (cacheTouch c (correct_partition lambda)) with
          | none => none
          | some (res, c2) => some (res, cacheStore c2 (correct_partition lambda)
              (r0 :: rtl) res)) = some (v, c') := h
        cases hfold : charFoldF (fun part cc => char_valueAux fuel part rtl cc)
            (get_border_strips (correct_partition lambda) (i32ofSz r0)) 0
            (cacheTouch c (correct_partition lambda)) with
        | none =>
          rw [hfold] at h
          replace h : (none : Option (Int × Cache)) = some (v, c') := h
          simp at h
        | some rc =>
          obtain ⟨res, c2⟩ := rc
          rw [hfold] at h
          replace h : some (res, cacheStore c2 (correct_partition lambda) (r0 :: rtl) res)
            = some (v, c') := h
          injection h with h
          rw [Prod.mk.injEq] at h
          obtain ⟨rfl, rfl⟩ := h
          have ht : cacheTouch (cacheStore c2 (correct_partition lambda) (r0 :: rtl) res)
              (correct_partition lambda)
              = cacheStore c2 (correct_partition lambda) (r0 :: rtl) res := by
            apply cacheTouch_of_has
            rw [cacheHasOuter_store]
            exact cacheHasOuter_touch c2 (correct_partition lambda)
          rw [ht, cacheFind_store_self]

lemma char_valueAux_stable (fuel g fuel' : Nat) (lambda rho lambda2 rho2 : List Nat)
    (c c2 : Cache) (v w : Int)
    (h1 : char_valueAux (fuel + 1) lambda rho c = some (v, c))
    (hm : char_valueAux (g + 1) lambda2 rho2 c = some (w, c2)) :
    char_valueAux (fuel' + 1) lambda rho c2 = some (v, c2) := by
  obtain ⟨hpres, -, houter⟩ := char_valueAux_mono (g + 1) lambda2 rho2 c w c2 hm
  rw [char_valueAux_succ] at h1
  rw [char_valueAux_succ]
  by_cases h2 : SumSz (correct_partition lambda) < 2
  · rw [if_pos h2] at h1
    rw [if_pos h2]
    replace h1 : some ((1 : Int), c) = some (v, c) := h1
    injection h1 with h1
    rw [Prod.mk.injEq] at h1
    obtain ⟨rfl, -⟩ := h1
    rfl
  · rw [if_neg h2] at h1
    rw [if_neg h2]
    cases hf : cacheFind (cacheTouch c (correct_partition lambda)) (correct_partition lambda)
        (correct_partition rho) with
    | some u =>
      rw [hf] at h1
      replace h1 : some (u, cacheTouch c (correct_partition lambda)) = some (v, c) := h1
      injection h1 with h1
      rw [Prod.mk.injEq] at h1
      obtain ⟨rfl, htouch⟩ := h1
      have hhas : cacheHasOuter c (correct_partition lambda) = true := hasOuter_of_touch_eq htouch
      rw [cacheFind_touch] at hf
      have hfind2 : cacheFind c2 (correct_partition lambda) (correct_partition rho) = some u :=
        hpres _ _ _ hf
      have hhas2 : cacheHasOuter c2 (correct_partition lambda) = true := houter _ hhas
      rw [cacheTouch_of_has hhas2, hfind2]
    | none =>
      rw [hf] at h1
      cases hr : correct_partition rho with
      | nil =>
        rw [hr] at h1
        replace h1 : (none : Option (Int × Cache)) = some (v, c) := h1
        simp at h1
      | cons r0 rtl =>
        rw [hr] at h1
        replace h1 : (match charFoldF (fun part cc => char_valueAux fuel part rtl cc)
            (get_border_strips (correct_partition lambda) (i32ofSz r0)) 0
            (cacheTouch c (correct_partition lambda)) with
          | none => none
          | some (res, cmid) => some (res, cacheStore cmid (correct_partition lambda)
              (r0 :: rtl) res)) = some (v, c) := h1
        cases hfold : charFoldF (fun part cc => char_valueAux fuel part rtl cc)
            (get_border_strips (correct_partition lambda) (i32ofSz r0)) 0
            (cacheTouch c (correct_partition lambda)) with
        | none =>
          rw [hfold] at h1
          replace h1 : (none : Option (Int × Cache)) = some (v, c) := h1
          simp at h1
        | some rc =>
          obtain ⟨res, cmid⟩ := rc
          rw [hfold] at h1
          replace h1 : some (res, cacheStore cmid (correct_partition lambda) (r0 :: rtl) res)
            = some (v, c) := h1
          injection h1 with h1
          rw [Prod.mk.injEq] at h1
          obtain ⟨rfl, hstore⟩ := h1
          exfalso
          have hself : cacheFind c (correct_partition lambda) (r0 :: rtl) = some res := by
            rw [← hstore]
            exact cacheFind_store_self cmid _ _ res
          rw [hr, cacheFind_touch] at hf
          rw [hf] at hself
          simp at hself

lemma char_value_replay (lambda rho : List Nat) (c c' : Cache) (v : Int)
    (h : char_value lambda rho c = some (v, c')) : char_value lambda rho c' = some (v, c') :=
  char_valueAux_replay rho.length rho.length lambda rho c c' v h

lemma char_value_stable (lambda rho lambda2 rho2 : List Nat) (c c2 : Cache) (v w : Int)
    (h1 : char_value lambda rho c = some (v, c))
    (hm : char_value lambda2 rho2 c = some (w, c2)) :
    char_value lambda rho c2 = some (v, c2) :=
  char_valueAux_stable rho.length rho2.length rho.length lambda rho lambda2 rho2 c c2 v w h1 hm

lemma char_value_stable_rowFold : ∀ (cols : List (List Nat)) (lambda2 : List Nat)
    (c c' : Cache) (vs : List Int) (lambda rho : List Nat) (v : Int),
    char_value lambda rho c = some (v, c) →
    rowFold lambda2 cols c = some (vs, c') →
    char_value lambda rho c' = some (v, c') := by
  intro cols
  induction cols with
  | nil =>
    intro lambda2 c c' vs lambda rho v h1 h2
    replace h2 : some (([] : List Int), c) = some (vs, c') := h2
    injection h2 with h2
    rw [Prod.mk.injEq] at h2
    obtain ⟨-, rfl⟩ := h2
    exact h1
  | cons rho2 rest ih =>
    intro lambda2 c c' vs lambda rho v h1 h2
    rw [rowFold] at h2
    cases hcv : char_value lambda2 rho2 c with
    | none =>
      rw [hcv] at h2
      replace h2 : (none : Option (List Int × Cache)) = some (vs, c') := h2
      simp at h2
    | some wc =>
      obtain ⟨w, c1⟩ := wc
      rw [hcv] at h2
      replace h2 : (match rowFold lambda2 rest c1 with
        | none => none
        | some (vs1, c'') => some (w :: vs1, c'')) = some (vs, c') := h2
      cases hrf : rowFold lambda2 rest c1 with
      | none =>
        rw [hrf] at h2
        replace h2 : (none : Option (List Int × Cache)) = some (vs, c') := h2
        simp at h2
      | some vc2 =>
        obtain ⟨vs1, c''⟩ := vc2
        rw [hrf] at h2
        replace h2 : some (w :: vs1, c'') = some (vs, c') := h2
        injection h2 with h2
        rw [Prod.mk.injEq] at h2
        obtain ⟨-, rfl⟩ := h2
        exact ih lambda2 c1 c'' vs1 lambda rho v
          (char_value_stable lambda rho lambda2 rho2 c c1 v w h1 hcv) hrf

lemma char_value_stable_tableFold : ∀ (rows : List (List Nat)) (cols : List (List Nat))
    (c c' : Cache) (T : List (List Int)) (lambda rho : List Nat) (v : Int),
    char_value lambda rho c = some (v, c) →
    tableFold rows cols c = some (T, c') →
    char_value lambda rho c' = some (v, c') := by
  intro rows
  induction rows with
  | nil =>
    intro cols c c' T lambda rho v h1 h2
    replace h2 : some (([] : List (List Int)), c) = some (T, c') := h2
    injection h2 with h2
    rw [Prod.mk.injEq] at h2
    obtain ⟨-, rfl⟩ := h2
    exact h1
  | cons lambda2 rest ih =>
    intro cols c c' T lambda rho v h1 h2
    rw [tableFold] at h2
    cases hrf : rowFold lambda2 cols c with
    | none =>
      rw [hrf] at h2
      replace h2 : (none : Option (List (List Int) × Cache)) = some (T, c') := h2
      simp at h2
    | some vc =>
      obtain ⟨vs, c1⟩ := vc
      rw [hrf] at h2
      replace h2 : (match tableFold rest cols c1 with
        | none => none
        | some (t, c'') => some (vs :: t, c'')) = some (T, c') := h2
      cases htf : tableFold rest cols c1 with
      | none =>
        rw [htf] at h2
        replace h2 : (none : Option (List (List Int) × Cache)) = some (T, c') := h2
        simp at h2
      | some tc =>
        obtain ⟨T1, c''⟩ := tc
        rw [htf] at h2
        replace h2 : some (vs :: T1, c'') = some (T, c') := h2
        injection h2 with h2
        rw [Prod.mk.injEq] at h2
        obtain ⟨-, rfl⟩ := h2
        exact ih cols c1 c'' T1 lambda rho v
          (char_value_stable_rowFold cols lambda2 c c1 vs lambda rho v h1 hrf) htf

lemma rowFold_stable_facts : ∀ (cols : List (List Nat)) (lambda : List Nat)
    (c c' : Cache) (vs : List Int),
    rowFold lambda cols c = some (vs, c') →
    List.Forall₂ (fun rho v => char_value lambda rho c' = some (v, c')) cols vs := by
  intro cols
  induction cols with
  | nil =>
    intro lambda c c' vs h
    replace h : some (([] : List Int), c) = some (vs, c') := h
    injection h with h
    rw [Prod.mk.injEq] at h
    obtain ⟨rfl, rfl⟩ := h
    exact List.Forall₂.nil
  | cons rho rest ih =>
    intro lambda c c' vs h
    rw [rowFold] at h
    cases hcv : char_value lambda rho c with
    | none =>
      rw [hcv] at h
      replace h : (none : Option (List Int × Cache)) = some (vs, c') := h
      simp at h
    | some wc =>
      obtain ⟨v, c1⟩ := wc
      rw [hcv] at h
      replace h : (match rowFold lambda rest c1 with
        | none => none
        | some (vs1, c'') => some (v :: vs1, c'')) = some (vs, c') := h
      cases hrf : rowFold lambda rest c1 with
      | none =>
        rw [hrf] at h
        replace h : (none : Option (List Int × Cache)) = some (vs, c') := h
        simp at h
      | some vc2 =>
        obtain ⟨vs1, c''⟩ := vc2
        rw [hrf] at h
        replace h : some (v :: vs1, c'') = some (vs, c') := h
        injection h with h
        rw [Prod.mk.injEq] at h
        obtain ⟨rfl, rfl⟩ := h
        refine List.Forall₂.cons ?_ (ih lambda c1 c'' vs1 hrf)
        exact char_value_stable_rowFold rest lambda c1 c'' vs1 lambda rho v
          (char_value_replay lambda rho c c1 v hcv) hrf

lemma rowFold_of_facts (lambda : List Nat) (cols : List (List Nat)) (vs : List Int) (c : Cache)
    (h : List.Forall₂ (fun rho v => char_value lambda rho c = some (v, c)) cols vs) :
    rowFold lambda cols c = some (vs, c) := by
  induction h with
  | nil => rfl
  | @cons rho v rest vs1 hhead htail ihh =>
    rw [rowFold, hhead]
    show (match rowFold lambda rest c with
      | none => none
      | some (vs2, c'') => some (v :: vs2, c'')) = some (v :: vs1, c)
    rw [ihh]

lemma tableFold_stable_facts : ∀ (rows cols : List (List Nat)) (c c' : Cache)
    (T : List (List Int)),
    tableFold rows cols c = some (T, c') →
    List.Forall₂ (fun lambda vs =>
      List.Forall₂ (fun rho v => char_value lambda rho c' = some (v, c')) cols vs) rows T := by
  intro rows
  induction rows with
  | nil =>
    intro cols c c' T h
    replace h : some (([] : List (List Int)), c) = some (T, c') := h
    injection h with h
    rw [Prod.mk.injEq] at h
    obtain ⟨rfl, rfl⟩ := h
    exact List.Forall₂.nil
  | cons lambda rest ih =>
    intro cols c c' T h
    rw [tableFold] at h
    cases hrf : rowFold lambda cols c with
    | none =>
      rw [hrf] at h
      replace h : (none : Option (List (List Int) × Cache)) = some (T, c') := h
      simp at h
    | some vc =>
      obtain ⟨vs, c1⟩ := vc
      rw [hrf] at h
      replace h : (match tableFold rest cols c1 with
        | none => none
        | some (t, c'') => some (vs :: t, c'')) = some (T, c') := h
      cases htf : tableFold rest cols c1 with
      | none =>
        rw [htf] at h
        replace h : (none : Option (List (List Int) × Cache)) = some (T, c') := h
        simp at h
      | some tc =>
        obtain ⟨T1, c''⟩ := tc
        rw [htf] at h
        replace h : some (vs :: T1, c'') = some (T, c') := h
        injection h with h
        rw [Prod.mk.injEq] at h
        obtain ⟨rfl, rfl⟩ := h
        refine List.Forall₂.cons ?_ (ih cols c1 c'' T1 htf)
        have hfacts := rowFold_stable_facts cols lambda c c1 vs hrf
        refine List.Forall₂.imp ?_ hfacts
        intro rho v hfact
        exact char_value_stable_tableFold rest cols c1 c'' T1 lambda rho v hfact htf

lemma tableFold_of_facts (cols : List (List Nat)) : ∀ (rows : List (List Nat))
    (T : List (List Int)) (c : Cache),
    List.Forall₂ (fun lambda vs =>
      List.Forall₂ (fun rho v => char_value lambda rho c = some (v, c)) cols vs) rows T →
    tableFold rows cols c = some (T, c) := by
  intro rows T c h
  induction h with
  | nil => rfl
  | @cons lambda vs rest T1 hhead htail ihh =>
    rw [tableFold, rowFold_of_facts lambda cols vs c hhead]
    show (match tableFold rest cols c with
      | none => none
      | some (t, c'') => some (vs :: t, c'')) = some (vs :: T1, c)
    rw [ihh]

lemma tableFold_replay (rows cols : List (List Nat)) (c c' : Cache) (T : List (List Int))
    (h : tableFold rows cols c = some (T, c')) : tableFold rows cols c' = some (T, c') :=
  tableFold_of_facts cols rows T c' (tableFold_stable_facts rows cols c c' T h)

lemma extendAux_length_ge (n : Nat) : ∀ (fuel : Nat) (ps : List (List (List Nat))),
    n + 1 ≤ ps.length + fuel → n + 1 ≤ (extendAux n fuel ps).length := by
  intro fuel
  induction fuel with
  | zero =>
    intro ps h
    rw [extendAux]
    omega
  | succ fuel ih =>
    intro ps h
    rw [extendAux]
    by_cases hlt : ps.length < n + 1
    · rw [if_pos hlt]
      apply ih
      rw [List.length_append]
      simp only [List.length_singleton]
      omega
    · rw [if_neg hlt]
      omega

lemma extendAux_of_ge (n fuel : Nat) (ps : List (List (List Nat)))
    (h : n + 1 ≤ ps.length) : extendAux n fuel ps = ps := by
  cases fuel with
  | zero => rw [extendAux]
  | succ fuel =>
    rw [extendAux]
    rw [if_neg (by omega)]

lemma character_table_eq (n : Nat) (σ : CTState) :
    character_table n σ = (match tableFold ((extendAux n (n + 1) σ.partitions).getD n [])
        ((extendAux n (n + 1) σ.partitions).getD n []) σ.character_values with
      | none => none
      | some (t, c') => some (t, ⟨c', extendAux n (n + 1) σ.partitions⟩)) := rfl

/-- C8: calling `character_table(n)` a second time on the state produced by
the first call returns the identical matrix and leaves the state unchanged:
the partitions table is already long enough so `calculate_partitions` is a
no-op, and every (lambda, rho) value of the second sweep is answered from
the memoization cache (the cache after the second call is literally the
same object, so nothing is recomputed or re-stored). -/
theorem c8_character_table_idempotent (n : Nat) (σ σ1 : CTState) (T : List (List Int))
    (h : character_table n σ = some (T, σ1)) :
    character_table n σ1 = some (T, σ1) := by
  rw [character_table_eq] at h
  cases htf : tableFold ((extendAux n (n + 1) σ.partitions).getD n [])
      ((extendAux n (n + 1) σ.partitions).getD n []) σ.character_values with
  | none =>
    rw [htf] at h
    replace h : (none : Option (List (List Int) × CTState)) = some (T, σ1) := h
    simp at h
  | some tc =>
    obtain ⟨t, c'⟩ := tc
    rw [htf] at h
    replace h : some (t, (⟨c', extendAux n (n + 1) σ.partitions⟩ : CTState)) = some (T, σ1) := h
    injection h with h
    rw [Prod.mk.injEq] at h
    obtain ⟨rfl, rfl⟩ := h
    have hidem : extendAux n (n + 1) (extendAux n (n + 1) σ.partitions)
        = extendAux n (n + 1) σ.partitions :=
      extendAux_of_ge n (n + 1) _ (extendAux_length_ge n (n + 1) σ.partitions (by omega))
    rw [character_table_eq]
    show (match tableFold ((extendAux n (n + 1) (extendAux n (n + 1) σ.partitions)).getD n [])
        ((extendAux n (n + 1) (extendAux n (n + 1) σ.partitions)).getD n []) c' with
      | none => none
      | some (t2, c2) => some (t2, (⟨c2, extendAux n (n + 1) (extendAux n (n + 1) σ.partitions)⟩ : CTState)))
      = some (t, (⟨c', extendAux n (n + 1) σ.partitions⟩ : CTState))
    rw [hidem]
    rw [tableFold_replay _ _ _ _ _ htf]

/-- C8, witness: for n = 3 starting from a fresh table, the second call
returns the same matrix and the same fully-populated state. -/
theorem c8_character_table_idempotent_witness :
    character_table 3 ⟨[([3], [([3], 1), ([2, 1], 1), ([1, 1, 1], 1)]),
        ([2], [([1, 1], 1)]),
        ([2, 1], [([3], -1), ([2, 1], 0), ([1, 1, 1], 2)]),
        ([1, 1], [([1, 1], 1)]),
        ([1, 1, 1], [([3], 1), ([2, 1], -1), ([1, 1, 1], 1)])],
      [[[]], [[1]], [[2], [1, 1]], [[3], [2, 1], [1, 1, 1]]]⟩
      = some ([[1, 1, 1], [-1, 0, 2], [1, -1, 1]],
        ⟨[([3], [([3], 1), ([2, 1], 1), ([1, 1, 1], 1)]),
          ([2], [([1, 1], 1)]),
          ([2, 1], [([3], -1), ([2, 1], 0), ([1, 1, 1], 2)]),
          ([1, 1], [([1, 1], 1)]),
          ([1, 1, 1], [([3], 1), ([2, 1], -1), ([1, 1, 1], 1)])],
        [[[]], [[1]], [[2], [1, 1]], [[3], [2, 1], [1, 1, 1]]]⟩) :=
  c8_character_table_idempotent 3 initState _ _ (by decide)

/-! ### Positivity invariant of the stored state -/

lemma innerInsert_wf {m : InnerCache} (h : ∀ e2 ∈ m, PosParts e2.1) {r : List Nat}
    (hr : PosParts r) (v : Int) : ∀ e2 ∈ innerInsert m r v, PosParts e2.1 := by
  intro e2 he2
  unfold innerInsert at he2
  by_cases hany : m.any (fun e => e.1 = r) = true
  · rw [if_pos hany] at he2
    obtain ⟨e0, he0, hmap⟩ := List.mem_map.mp he2
    by_cases he : e0.1 = r
    · rw [if_pos he] at hmap
      rw [← hmap]
      exact hr
    · rw [if_neg he] at hmap
      rw [← hmap]
      exact h e0 he0
  · rw [if_neg hany] at he2
    rcases List.mem_append.mp he2 with h1 | h1
    · exact h e2 h1
    · rw [List.mem_singleton.mp h1]
      exact hr

lemma cacheWF_touch {c : Cache} (h : CacheWF c) {l : List Nat} (hl : PosParts l) :
    CacheWF (cacheTouch c l) := by
  unfold cacheTouch
  by_cases hh : cacheHasOuter c l = true
  · rw [if_pos hh]
    exact h
  · rw [if_neg hh]
    intro e he
    rcases List.mem_append.mp he with h1 | h1
    · exact h e h1
    · rw [List.mem_singleton.mp h1]
      exact ⟨hl, fun e2 he2 => absurd he2 (List.not_mem_nil e2)⟩

lemma cacheWF_store {c : Cache} (h : CacheWF c) {l r : List Nat}
    (hl : PosParts l) (hr : PosParts r) (v : Int) : CacheWF (cacheStore c l r v) := by
  unfold cacheStore
  have htw : CacheWF (cacheTouch c l) := cacheWF_touch h hl
  intro e he
  obtain ⟨e0, he0, hmap⟩ := List.mem_map.mp he
  by_cases hee : e0.1 = l
  · rw [if_pos hee] at hmap
    rw [← hmap]
    exact ⟨(htw e0 he0).1, innerInsert_wf (htw e0 he0).2 hr v⟩
  · rw [if_neg hee] at hmap
    rw [← hmap]
    exact htw e0 he0

lemma charFoldF_wf (f : List Nat → Cache → Option (Int × Cache))
    (hf : ∀ part cc w cc', CacheWF cc → f part cc = some (w, cc') → CacheWF cc') :
    ∀ (strips : List PartitionWithoutBorderStrip) (acc : Int) (c : Cache) (res : Int)
      (c2 : Cache), CacheWF c → charFoldF f strips acc c = some (res, c2) → CacheWF c2 := by
  intro strips
  induction strips with
  | nil =>
    intro acc c res c2 hwf h
    replace h : some (acc, c) = some (res, c2) := h
    injection h with h
    rw [Prod.mk.injEq] at h
    obtain ⟨-, rfl⟩ := h
    exact hwf
  | cons p rest ih =>
    intro acc c res c2 hwf h
    rw [charFoldF] at h
    cases hp : f (correct_partition p.partition) c with
    | none =>
      rw [hp] at h
      replace h : (none : Option (Int × Cache)) = some (res, c2) := h
      simp at h
    | some vc =>
      obtain ⟨w, cc⟩ := vc
      rw [hp] at h
      exact ih _ cc res c2 (hf _ c w cc hwf hp) h

lemma char_valueAux_wf : ∀ (fuel : Nat) (lambda rho : List Nat) (c : Cache) (v : Int)
    (c' : Cache), CacheWF c → char_valueAux fuel lambda rho c = some (v, c') → CacheWF c' := by
  intro fuel
  induction fuel with
  | zero =>
    intro lambda rho c v c' hwf h
    replace h : (none : Option (Int × Cache)) = some (v, c') := h
    simp at h
  | succ fuel ih =>
    intro lambda rho c v c' hwf h
    rw [char_valueAux_succ] at h
    by_cases h2 : SumSz (correct_partition lambda) < 2
    · rw [if_pos h2] at h
      replace h : some ((1 : Int), c) = some (v, c') := h
      injection h with h
      rw [Prod.mk.injEq] at h
      obtain ⟨-, rfl⟩ := h
      exact hwf
    · rw [if_neg h2] at h
      cases hf : cacheFind (cacheTouch c (correct_partition lambda)) (correct_partition lambda)
          (correct_partition rho) with
      | some w =>
        rw [hf] at h
        replace h : some (w, cacheTouch c (correct_partition lambda)) = some (v, c') := h
        injection h with h
        rw [Prod.mk.injEq] at h
        obtain ⟨-, rfl⟩ := h
        exact cacheWF_touch hwf (posParts_correct lambda)
      | none =>
        rw [hf] at h
        cases hr : correct_partition rho with
        | nil =>
          rw [hr] at h
          replace h : (none : Option (Int × Cache)) = some (v, c') := h
          simp at h
        | cons r0 rtl =>
          rw [hr] at h
          replace h : (match charFoldF (fun part cc => char_valueAux fuel part rtl cc)
              (get_border_strips (correct_partition lambda) (i32ofSz r0)) 0
              (cacheTouch c (correct_partition lambda)) with
            | none => none
            | some (res, c2) => some (res, cacheStore c2 (correct_partition lambda)
                (r0 :: rtl) res)) = some (v, c') := h
          cases hfold : charFoldF (fun part cc => char_valueAux fuel part rtl cc)
              (get_border_strips (correct_partition lambda) (i32ofSz r0)) 0
              (cacheTouch c (correct_partition lambda)) with
          | none =>
            rw [hfold] at h
            replace h : (none : Option (Int × Cache)) = some (v, c') := h
            simp at h
          | some rc =>
            obtain ⟨res, c2⟩ := rc
            rw [hfold] at h
            replace h : some (res, cacheStore c2 (correct_partition lambda) (r0 :: rtl) res)
              = some (v, c') := h
            injection h with h
            rw [Prod.mk.injEq] at h
            obtain ⟨-, rfl⟩ := h
            have hwf2 : CacheWF c2 := charFoldF_wf _
              (fun part cc w cc' hw hc => ih part rtl cc w cc' hw hc) _ 0 _ res c2
              (cacheWF_touch hwf (posParts_correct lambda)) hfold
            have hposr : PosParts (r0 :: rtl) := hr ▸ posParts_correct rho
            exact cacheWF_store hwf2 (posParts_correct lambda) hposr res

lemma rowFold_wf : ∀ (cols : List (List Nat)) (lambda : List Nat) (c c' : Cache)
    (vs : List Int), CacheWF c → rowFold lambda cols c = some (vs, c') → CacheWF c' := by
  intro cols
  induction cols with
  | nil =>
    intro lambda c c' vs hwf h
    replace h : some (([] : List Int), c) = some (vs, c') := h
    injection h with h
    rw [Prod.mk.injEq] at h
    obtain ⟨-, rfl⟩ := h
    exact hwf
  | cons rho rest ih =>
    intro lambda c c' vs hwf h
    rw [rowFold] at h
    cases hcv : char_value lambda rho c with
    | none =>
      rw [hcv] at h
      replace h : (none : Option (List Int × Cache)) = some (vs, c') := h
      simp at h
    | some wc =>
      obtain ⟨v, c1⟩ := wc
      rw [hcv] at h
      replace h : (match rowFold lambda rest c1 with
        | none => none
        | some (vs1, c'') => some (v :: vs1, c'')) = some (vs, c') := h
      cases hrf : rowFold lambda rest c1 with
      | none =>
        rw [hrf] at h
        replace h : (none : Option (List Int × Cache)) = some (vs, c') := h
        simp at h
      | some vc2 =>
        obtain ⟨vs1, c''⟩ := vc2
        rw [hrf] at h
        replace h : some (v :: vs1, c'') = some (vs, c') := h
        injection h with h
        rw [Prod.mk.injEq] at h
        obtain ⟨-, rfl⟩ := h
        exact ih lambda c1 c'' vs1
          (char_valueAux_wf (rho.length + 1) lambda rho c v c1 hwf hcv) hrf

lemma tableFold_wf : ∀ (rows cols : List (List Nat)) (c c' : Cache) (T : List (List Int)),
    CacheWF c → tableFold rows cols c = some (T, c') → CacheWF c' := by
  intro rows
  induction rows with
  | nil =>
    intro cols c c' T hwf h
    replace h : some (([] : List (List Int)), c) = some (T, c') := h
    injection h with h
    rw [Prod.mk.injEq] at h
    obtain ⟨-, rfl⟩ := h
    exact hwf
  | cons lambda rest ih =>
    intro cols c c' T hwf h
    rw [tableFold] at h
    cases hrf : rowFold lambda cols c with
    | none =>
      rw [hrf] at h
      replace h : (none : Option (List (List Int) × Cache)) = some (T, c') := h
      simp at h
    | some vc =>
      obtain ⟨vs, c1⟩ := vc
      rw [hrf] at h
      replace h : (match tableFold rest cols c1 with
        | none => none
        | some (t, c'') => some (vs :: t, c'')) = some (T, c') := h
      cases htf : tableFold rest cols c1 with
      | none =>
        rw [htf] at h
        replace h : (none : Option (List (List Int) × Cache)) = some (T, c') := h
        simp at h
      | some tc =>
        obtain ⟨T1, c''⟩ := tc
        rw [htf] at h
        replace h : some (vs :: T1, c'') = some (T, c') := h
        injection h with h
        rw [Prod.mk.injEq] at h
        obtain ⟨-, rfl⟩ := h
        exact ih cols c1 c'' T1 (rowFold_wf cols lambda c c1 vs hwf hrf) htf

lemma mem_insertDesc : ∀ (l : List Nat) (x a : Nat), x ∈ insertDesc a l → x = a ∨ x ∈ l := by
  intro l
  induction l with
  | nil =>
    intro x a h
    left
    exact List.mem_singleton.mp h
  | cons y ys ih =>
    intro x a h
    rw [insertDesc] at h
    by_cases hc : y < a
    · rw [if_pos hc] at h
      rcases List.mem_cons.mp h with rfl | h1
      · left; rfl
      · right; exact h1
    · rw [if_neg hc] at h
      rcases List.mem_cons.mp h with rfl | h1
      · right; exact List.mem_cons_self x ys
      · rcases ih x a h1 with h2 | h2
        · left; exact h2
        · right; exact List.mem_cons_of_mem y h2

lemma mem_sortDesc : ∀ (l : List Nat) (x : Nat), x ∈ sortDesc l → x ∈ l := by
  intro l
  induction l with
  | nil =>
    intro x h
    exact absurd h (List.not_mem_nil x)
  | cons y ys ih =>
    intro x h
    replace h : x ∈ insertDesc y (sortDesc ys) := h
    rcases mem_insertDesc _ x y h with rfl | h1
    · exact List.mem_cons_self x ys
    · exact List.mem_cons_of_mem y (ih x h1)

lemma mem_uniqueAdjRest : ∀ (l : List (List Nat)) (prev x : List Nat),
    x ∈ uniqueAdjRest prev l → x ∈ l := by
  intro l
  induction l with
  | nil =>
    intro prev x h
    exact absurd h (List.not_mem_nil x)
  | cons y ys ih =>
    intro prev x h
    rw [uniqueAdjRest] at h
    by_cases hc : y = prev
    · rw [if_pos hc] at h
      exact List.mem_cons_of_mem y (ih prev x h)
    · rw [if_neg hc] at h
      rcases List.mem_cons.mp h with rfl | h1
      · exact List.mem_cons_self x ys
      · exact List.mem_cons_of_mem y (ih y x h1)

lemma mem_uniqueAdj (l : List (List Nat)) (x : List Nat) (h : x ∈ uniqueAdj l) : x ∈ l := by
  cases l with
  | nil => exact absurd h (List.not_mem_nil x)
  | cons y ys =>
    rw [uniqueAdj] at h
    rcases List.mem_cons.mp h with rfl | h1
    · exact List.mem_cons_self x ys
    · exact List.mem_cons_of_mem y (mem_uniqueAdjRest ys y x h1)

lemma buildNum_wf {ps : List (List (List Nat))} (h : PartsWF ps) (k : Nat) :
    ∀ p ∈ buildNum ps k, PosParts p := by
  intro p hp
  unfold buildNum at hp
  have hp2 := mem_uniqueAdj _ p hp
  obtain ⟨index, hidx, hp3⟩ := List.mem_flatMap.mp hp2
  obtain ⟨q, hq, rfl⟩ := List.mem_map.mp hp3
  have hqpos : PosParts q := by
    by_cases hlen : index < ps.length
    · rw [List.getD_eq_getElem ps [] hlen] at hq
      exact h _ (List.getElem_mem hlen) q hq
    · rw [List.getD_eq_default ps [] (by omega)] at hq
      exact absurd hq (List.not_mem_nil q)
  intro x hx
  have hx2 := mem_sortDesc _ x hx
  rcases List.mem_append.mp hx2 with h1 | h1
  · exact hqpos x h1
  · rw [List.mem_singleton.mp h1]
    have hik : index < k := List.mem_range.mp hidx
    omega

lemma extendAux_wf (n : Nat) : ∀ (fuel : Nat) (ps : List (List (List Nat))),
    PartsWF ps → PartsWF (extendAux n fuel ps) := by
  intro fuel
  induction fuel with
  | zero =>
    intro ps h
    rw [extendAux]
    exact h
  | succ fuel ih =>
    intro ps h
    rw [extendAux]
    by_cases hlt : ps.length < n + 1
    · rw [if_pos hlt]
      apply ih
      intro row hrow
      rcases List.mem_append.mp hrow with h1 | h1
      · exact h row h1
      · rw [List.mem_singleton.mp h1]
        exact buildNum_wf h ps.length
    · rw [if_neg hlt]
      exact h

/-- C9: the positivity invariant — every partition stored in the state
(outer and inner cache keys, and every partition in the partitions table)
has only positive parts — is preserved by `char_value`, by
`calculate_partitions` (whose returned list also contains only
positive-part partitions), and by `character_table`; hence it holds after
any sequence of calls starting from a well-formed (e.g. fresh) state. -/
theorem c9_state_positive_parts :
    (∀ lambda rho c v c', CacheWF c → char_value lambda rho c = some (v, c') → CacheWF c')
    ∧ (∀ n σ, StateWF σ → StateWF (calculate_partitions n σ).2
        ∧ ∀ p ∈ (calculate_partitions n σ).1, PosParts p)
    ∧ (∀ n σ T σ', StateWF σ → character_table n σ = some (T, σ') → StateWF σ') := by
  refine ⟨?_, ?_, ?_⟩
  · intro lambda rho c v c' hwf h
    exact char_valueAux_wf (rho.length + 1) lambda rho c v c' hwf h
  · intro n σ hσ
    constructor
    · exact ⟨hσ.1, extendAux_wf n (n + 1) σ.partitions hσ.2⟩
    · intro p hp
      replace hp : p ∈ (extendAux n (n + 1) σ.partitions).getD n [] := hp
      by_cases hlen : n < (extendAux n (n + 1) σ.partitions).length
      · rw [List.getD_eq_getElem _ _ hlen] at hp
        exact extendAux_wf n (n + 1) σ.partitions hσ.2 _ (List.getElem_mem hlen) p hp
      · rw [List.getD_eq_default _ _ (by omega)] at hp
        exact absurd hp (List.not_mem_nil p)
  · intro n σ T σ' hσ h
    rw [character_table_eq] at h
    cases htf : tableFold ((extendAux n (n + 1) σ.partitions).getD n [])
        ((extendAux n (n + 1) σ.partitions).getD n []) σ.character_values with
    | none =>
      rw [htf] at h
      replace h : (none : Option (List (List Int) × CTState)) = some (T, σ') := h
      simp at h
    | some tc =>
      obtain ⟨t, c'⟩ := tc
      rw [htf] at h
      replace h : some (t, (⟨c', extendAux n (n + 1) σ.partitions⟩ : CTState)) = some (T, σ') := h
      injection h with h
      rw [Prod.mk.injEq] at h
      obtain ⟨-, rfl⟩ := h
      exact ⟨tableFold_wf _ _ _ _ _ hσ.1 htf, extendAux_wf n (n + 1) σ.partitions hσ.2⟩

/-- C9, witness: running char_value([2,1], [2,1]) on the empty cache stores
the outer key [2,1] and the inner key [2,1], both with positive parts only. -/
theorem c9_state_positive_parts_witness :
    CacheWF [([2, 1], [([2, 1], 0)])] :=
  c9_state_positive_parts.1 [2, 1] [2, 1] [] 0 [([2, 1], [([2, 1], 0)])]
    (fun e he => absurd he (List.not_mem_nil e)) (by decide)
